import Mathlib

/-! An open-addressing hash table with tombstones (`src/hashtable/hashtable.go`).

A shallow embedding of the Go package `hashtable`: the FNV style `hash`, the
bucket array with linear probing, tombstone based removal and the growth by
rehashing.  Everything is modelled sequentially (the `sync.RWMutex` only
serialises calls and is left out).

Modelling decisions, each traceable to the source:

* a Go `string` is a sequence of bytes: `Key := List UInt8`;
* a Go `interface{}` value is `Option V`, `none` being the nil interface;
* a bucket holds a pointer `*entry`: nil, the package-level `tombstone`
  sentinel, or a freshly allocated entry owned by the table (`Slot`);
* the sentinel is one shared mutable object: its `value` field can be written
  by `insert`, so it is part of the modelled state (`Heap.tombstoneValue`); its
  key is the constant `"tombstone"`;
* `int` is the 64 bit signed integer: `hash` wraps (`wrap64`), `%` truncates
  toward zero (`Int.tmod`).  The counters `size` and `capacity` are kept as
  unbounded integers, since a slice cannot have anywhere near `2^62` elements;
* a runtime panic (index out of range, division by zero, negative `make`) is
  `Fault.panic`; the unbounded `for` loops run on fuel, one unit per iteration
  of a probe loop, and `Fault.outOfFuel` is the model of "still running".
-/

namespace Hashtable

/-- A Go string: a sequence of bytes. -/
abbrev Key := List UInt8

/-- The two ways in which a call does not return normally. -/
inductive Fault where
  | panic
  | outOfFuel
  deriving DecidableEq, Repr

deriving instance DecidableEq for Except

/-- The pointer stored in a bucket (`*entry`): nil, the shared `tombstone`
sentinel, or an entry allocated by `insert`. -/
inductive Slot (V : Type) where
  | nil
  | tombstone
  | entry (key : Key) (value : Option V)
  deriving DecidableEq, Repr

/-- The struct `hashtable` without its mutex. -/
structure hashtable (V : Type) where
  size : Int
  capacity : Int
  buckets : List (Slot V)
  deriving DecidableEq, Repr

/-- The modelled memory: the `value` field of the package-level `tombstone`
entry, and one table. -/
structure Heap (V : Type) where
  tombstoneValue : Option V
  table : hashtable V
  deriving DecidableEq, Repr

/-- The bytes of the string literal `"tombstone"`, the key of the sentinel. -/
def tombstoneKey : Key := [116, 111, 109, 98, 115, 116, 111, 110, 101]

/-- The bytes of the string literal `"keythatdoesnotexist"`, a key of the test
`TestHashtable/Size`; its hash is negative as a 64 bit signed integer. -/
def keythatdoesnotexist : Key :=
  [107, 101, 121, 116, 104, 97, 116, 100, 111, 101,
   115, 110, 111, 116, 101, 120, 105, 115, 116]

/-- The field `key` read through a non-nil pointer; `none` for the nil pointer
(a nil dereference, which the source never performs). -/
def Slot.key? {V : Type} : Slot V → Option Key
  | .nil => none
  | .tombstone => some tombstoneKey
  | .entry k _ => some k

/-- The method `(e *entry) IsEmpty`: `e == nil || e == tombstone`. -/
def Slot.IsEmpty {V : Type} : Slot V → Bool
  | .nil => true
  | .tombstone => true
  | .entry _ _ => false

/-- Reduction of an integer to the 64 bit signed range (two's complement). -/
def wrap64 (x : Int) : Int := (x + 2 ^ 63) % 2 ^ 64 - 2 ^ 63

/-- The loop body of `hash`, folded over the bytes: `out ^= int(s[i])`, then
`out *= 16777619` in 64 bit signed arithmetic. -/
def hashFrom (out : Int) : Key → Int
  | [] => out
  | b :: rest => hashFrom (wrap64 (Int.xor out (b.toNat : Int) * 16777619)) rest

/-- The function `hash`. -/
def hash (s : Key) : Int := hashFrom 2166136261 s

/-- The value of `int(float64(capacity) * 0.75)`: the product is exact for every
capacity a slice can have, and the conversion truncates toward zero. -/
def maxLoad (capacity : Int) : Int := Int.tdiv (3 * capacity) 4

/-- The method `willExceedCapacity`. -/
def willExceedCapacity {V : Type} (table : hashtable V) : Bool :=
  decide (table.size + 1 > maxLoad table.capacity)

/-- The method `Size`. -/
def Size {V : Type} (table : hashtable V) : Int := table.size

/-- The method `IsEmpty` of the table. -/
def IsEmpty {V : Type} (table : hashtable V) : Bool := decide (Size table = 0)

/-- An indexing expression `buckets[index]`: `none` when it panics. -/
def bucketAt {V : Type} (buckets : List (Slot V)) (index : Int) : Option (Slot V) :=
  if index < 0 then none else buckets[index.toNat]?

/-- The expression `hash(key) % table.capacity`: `none` when the capacity is 0
(integer division by zero). -/
def startIndex {V : Type} (table : hashtable V) (key : Key) : Option Int :=
  if table.capacity = 0 then none else some (Int.tmod (hash key) table.capacity)

/-- The `for` loop of `find`, from the current `index` and `visitedBuckets`. -/
def findLoop {V : Type} (table : hashtable V) (key : Key) :
    Nat → Int → Int → Except Fault (Slot V)
  | 0, _, _ => .error .outOfFuel
  | fuel + 1, index, visitedBuckets =>
    if visitedBuckets = Size table then .ok .nil
    else
      match bucketAt table.buckets index with
      | none => .error .panic
      | some .nil => .ok .nil
      | some e =>
        if e.key? = some key then .ok e
        else findLoop table key fuel (Int.tmod (index + 1) table.capacity) (visitedBuckets + 1)

/-- The method `find`: the pointer it returns. -/
def find {V : Type} (fuel : Nat) (table : hashtable V) (key : Key) : Except Fault (Slot V) :=
  if IsEmpty table then .ok .nil
  else
    match startIndex table key with
    | none => .error .panic
    | some index => findLoop table key fuel index 0

/-- The method `Has`. -/
def Has {V : Type} (fuel : Nat) (h : Heap V) (key : Key) : Except Fault Bool :=
  match find fuel h.table key with
  | .error f => .error f
  | .ok .nil => .ok false
  | .ok _ => .ok true

/-- The method `Get`: `none` is the nil interface value. -/
def Get {V : Type} (fuel : Nat) (h : Heap V) (key : Key) : Except Fault (Option V) :=
  match find fuel h.table key with
  | .error f => .error f
  | .ok .nil => .ok none
  | .ok .tombstone => .ok h.tombstoneValue
  | .ok (.entry _ value) => .ok value

/-- The `for` loop of `Remove`. -/
def removeLoop {V : Type} (table : hashtable V) (key : Key) :
    Nat → Int → Int → Except Fault (hashtable V)
  | 0, _, _ => .error .outOfFuel
  | fuel + 1, index, visitedBuckets =>
    if visitedBuckets = Size table then .ok table
    else
      match bucketAt table.buckets index with
      | none => .error .panic
      | some .nil => .ok table
      | some e =>
        if e.key? = some key then
          .ok { table with buckets := table.buckets.set index.toNat .tombstone,
                           size := table.size - 1 }
        else removeLoop table key fuel (Int.tmod (index + 1) table.capacity) (visitedBuckets + 1)

/-- The method `Remove`. -/
def Remove {V : Type} (fuel : Nat) (h : Heap V) (key : Key) : Except Fault (Heap V) :=
  if IsEmpty h.table then .ok h
  else
    match startIndex h.table key with
    | none => .error .panic
    | some index =>
      match removeLoop h.table key fuel index 0 with
      | .error f => .error f
      | .ok table => .ok { h with table := table }

/-- The `for` loop of `insert`.  Writing through a bucket that points to the
sentinel changes the sentinel's `value`, not the bucket array. -/
def insertLoop {V : Type} (key : Key) (value : Option V) :
    Nat → Heap V → Int → Except Fault (Heap V)
  | 0, _, _ => .error .outOfFuel
  | fuel + 1, h, index =>
    match bucketAt h.table.buckets index with
    | none => .error .panic
    | some .nil =>
      .ok { h with table := { h.table with
              buckets := h.table.buckets.set index.toNat (.entry key value),
              size := h.table.size + 1 } }
    | some .tombstone =>
      if tombstoneKey = key then .ok { h with tombstoneValue := value }
      else insertLoop key value fuel h (Int.tmod (index + 1) h.table.capacity)
    | some (.entry k _) =>
      if k = key then
        .ok { h with table := { h.table with
                buckets := h.table.buckets.set index.toNat (.entry key value) } }
      else insertLoop key value fuel h (Int.tmod (index + 1) h.table.capacity)

/-- The method `insert`. -/
def insert {V : Type} (fuel : Nat) (h : Heap V) (key : Key) (value : Option V) :
    Except Fault (Heap V) :=
  match startIndex h.table key with
  | none => .error .panic
  | some index => insertLoop key value fuel h index

/-- The `range` loop of `doubleCapacity` over the old bucket array. -/
def rehash {V : Type} (fuel : Nat) : List (Slot V) → Heap V → Except Fault (Heap V)
  | [], h => .ok h
  | bucket :: rest, h =>
    if bucket.IsEmpty then rehash fuel rest h
    else
      match bucket with
      | .entry key value =>
        match insert fuel h key value with
        | .error f => .error f
        | .ok h' => rehash fuel rest h'
      | _ => rehash fuel rest h

/-- The method `doubleCapacity`; `make` panics on a negative length. -/
def doubleCapacity {V : Type} (fuel : Nat) (h : Heap V) : Except Fault (Heap V) :=
  let buckets := h.table.buckets
  let capacity := 2 * h.table.capacity + 1
  if capacity < 0 then .error .panic
  else
    rehash fuel buckets
      { h with table := { size := 0, capacity := capacity,
                          buckets := List.replicate capacity.toNat .nil } }

/-- The method `Set`. -/
def Set {V : Type} (fuel : Nat) (h : Heap V) (key : Key) (value : Option V) :
    Except Fault (Heap V) :=
  if willExceedCapacity h.table then
    match doubleCapacity fuel h with
    | .error f => .error f
    | .ok h' => insert fuel h' key value
  else insert fuel h key value

/-- The constructor `New`. -/
def New {V : Type} : hashtable V := { size := 0, capacity := 0, buckets := [] }

/-- The memory at program start: the sentinel's value is nil, the table is
`New()`. -/
def initial {V : Type} : Heap V := { tombstoneValue := none, table := New }

/-- A call of one of the two mutating methods of the public interface. -/
inductive Op (V : Type) where
  | set (key : Key) (value : Option V)
  | remove (key : Key)
  deriving DecidableEq, Repr

/-- One call. -/
def step {V : Type} (fuel : Nat) (h : Heap V) : Op V → Except Fault (Heap V)
  | .set key value => Set fuel h key value
  | .remove key => Remove fuel h key

/-- A sequence of calls, each of which has to return normally. -/
def run {V : Type} (fuel : Nat) : List (Op V) → Heap V → Except Fault (Heap V)
  | [], h => .ok h
  | op :: rest, h =>
    match step fuel h op with
    | .error f => .error f
    | .ok h' => run fuel rest h'

/-- A table that some finite sequence of `Set` and `Remove` calls builds from
`New()`. -/
def Reachable {V : Type} (h : Heap V) : Prop :=
  ∃ (fuel : Nat) (ops : List (Op V)), run fuel ops initial = .ok h


/-- The calls of a sequence of `Set` calls, given as (key, value) pairs. -/
def setCalls {V : Type} (kvs : List (Key × Option V)) : List (Op V) :=
  kvs.map (fun kv => Op.set kv.1 kv.2)

/-- The value of the last `Set` on `k` in a sequence of `Set` calls, `none` when
`k` was never set. -/
def lastSet {V : Type} : List (Key × Option V) → Key → Option (Option V)
  | [], _ => none
  | (k', v) :: rest, k =>
    match lastSet rest k with
    | some w => some w
    | none => if k' = k then some v else none

/-- The number of distinct keys of a sequence of `Set` calls. -/
def distinctKeys {V : Type} (kvs : List (Key × Option V)) : Nat :=
  ((kvs.map Prod.fst).dedup).length

/-- Reference model, from the specification: an ordinary map, as an association
list with one pair per key. -/
abbrev RefMap (V : Type) := List (Key × Option V)

/-- Reference model: `Set` inserts or overwrites. -/
def refSet {V : Type} (m : RefMap V) (key : Key) (value : Option V) : RefMap V :=
  (key, value) :: m.filter (fun e => decide (e.1 ≠ key))

/-- Reference model: `Remove` deletes if present and otherwise does nothing. -/
def refRemove {V : Type} (m : RefMap V) (key : Key) : RefMap V :=
  m.filter (fun e => decide (e.1 ≠ key))

/-- Reference model: one call. -/
def refStep {V : Type} (m : RefMap V) : Op V → RefMap V
  | .set key value => refSet m key value
  | .remove key => refRemove m key

/-- Reference model: a sequence of calls. -/
def refRun {V : Type} (ops : List (Op V)) (m : RefMap V) : RefMap V :=
  ops.foldl refStep m

/-- Reference model: the number of keys of the map. -/
def refSize {V : Type} (m : RefMap V) : Nat := m.length

/-- Bucket `i` of the table holds a live entry with key `k`. -/
def KeyAt {V : Type} (t : hashtable V) (i : Nat) (k : Key) : Prop :=
  ∃ v, t.buckets[i]? = some (Slot.entry k v)

/-- Some bucket of the table holds the live entry `(k, v)`. -/
def Holds {V : Type} (t : hashtable V) (k : Key) (v : Option V) : Prop :=
  ∃ i : Nat, t.buckets[i]? = some (Slot.entry k v)

/-- The probe chain of `k` up to distance `d`: the start index
`hash(k) % capacity` is the natural number `hm`, and the `d` buckets from it on
(cyclically) hold live entries of other keys. -/
def Chain {V : Type} (t : hashtable V) (k : Key) (hm d : Nat) : Prop :=
  Int.tmod (hash k) t.capacity = (hm : Int) ∧
    ∀ j, j < d → ∃ k', k' ≠ k ∧ KeyAt t ((hm + j) % t.buckets.length) k'

/-- The invariant of a table that holds no tombstone, with the list `ks` of its
keys: the capacity is the length of the bucket array, the size is the number of
keys, the keys are those of the live entries, and every live entry sits at the
end of its probe chain. -/
structure WF {V : Type} (t : hashtable V) (ks : List Key) : Prop where
  cap : t.capacity = (t.buckets.length : Int)
  noTomb : ∀ i : Nat, t.buckets[i]? ≠ some Slot.tombstone
  nodup : ks.Nodup
  size : t.size = (ks.length : Int)
  keys : ∀ k, k ∈ ks ↔ ∃ i, KeyAt t i k
  chain : ∀ i k, KeyAt t i k →
    ∃ hm d, Chain t k hm d ∧ i = (hm + d) % t.buckets.length

/-- Two buckets never hold live entries with the same key. -/
def DistinctKey {V : Type} (a b : Slot V) : Prop :=
  ∀ k v w, a = Slot.entry k v → b = Slot.entry k w → False

/-- What a returning `insert` of `(k, v)` guarantees on a table without
tombstones: the sentinel and the capacity are untouched, the invariant holds
with `k` among the keys, `k` maps to `v` and the other keys keep their
entries. -/
def InsertPost {V : Type} (tv : Option V) (t : hashtable V) (ks : List Key) (k : Key)
    (v : Option V) (h' : Heap V) : Prop :=
  h'.tombstoneValue = tv ∧ h'.table.capacity = t.capacity ∧
    ∃ ks', WF h'.table ks' ∧ (∀ x, x ∈ ks' ↔ x = k ∨ x ∈ ks) ∧ Holds h'.table k v ∧
      ∀ k', k' ≠ k → ∀ w, Holds t k' w → Holds h'.table k' w

/-- Reference, from the specification: the 32 bit FNV-1a accumulator, folded
over the bytes: XOR the byte in, then multiply by the prime modulo `2^32`. -/
def fnv1a32From (acc : Nat) : Key → Nat
  | [] => acc
  | b :: rest => fnv1a32From ((Nat.xor acc b.toNat * 16777619) % 2 ^ 32) rest

/-- Reference, from the specification: the 32 bit FNV-1a value of a byte
string, starting from the offset basis 2166136261. -/
def fnv1a32 (s : Key) : Nat := fnv1a32From 2166136261 s

/-- The number of buckets that hold a live entry (not nil, not the sentinel). -/
def liveCount {V : Type} (buckets : List (Slot V)) : Nat :=
  buckets.countP (fun e => !e.IsEmpty)

/-- Two tables of one process: they share the package-level sentinel. -/
structure World (V : Type) where
  tombstoneValue : Option V
  tableA : hashtable V
  tableB : hashtable V
  deriving DecidableEq, Repr

/-- A call `A.Set(key, value)` in a world of two tables. -/
def World.SetA {V : Type} (fuel : Nat) (w : World V) (key : Key) (value : Option V) :
    Except Fault (World V) :=
  match Set fuel ⟨w.tombstoneValue, w.tableA⟩ key value with
  | .error f => .error f
  | .ok h => .ok { tombstoneValue := h.tombstoneValue, tableA := h.table, tableB := w.tableB }

/-- A call `B.Get(key)` in a world of two tables. -/
def World.GetB {V : Type} (fuel : Nat) (w : World V) (key : Key) : Except Fault (Option V) :=
  Get fuel ⟨w.tombstoneValue, w.tableB⟩ key

/-- The load invariant: the capacity is the length of the bucket array, a table
of capacity 0 has size 0, and above capacity 1 the size is at most
`int(float64(capacity) * 0.75)`. -/
def LoadInv {V : Type} (t : hashtable V) : Prop :=
  t.capacity = (t.buckets.length : Int) ∧ (t.capacity = 0 → t.size = 0) ∧
    (t.capacity ≤ 1 ∨ t.size ≤ maxLoad t.capacity)

/-- The probe chain of `k` up to distance `d` in a table that may hold
tombstones: the start index `hash(k) % capacity` is the natural number `hm`, and
each of the `d` buckets from it on (cyclically) holds the sentinel or a live
entry of another key; none is nil. -/
def PChain {V : Type} (t : hashtable V) (k : Key) (hm d : Nat) : Prop :=
  Int.tmod (hash k) t.capacity = (hm : Int) ∧
    ∀ j, j < d →
      t.buckets[(hm + j) % t.buckets.length]? = some Slot.tombstone ∨
        ∃ k', k' ≠ k ∧ KeyAt t ((hm + j) % t.buckets.length) k'

/-- The probe chain invariant: the capacity is the length of the bucket array
and every live entry sits at the end of the probe chain of its key. -/
structure ProbeInv {V : Type} (t : hashtable V) : Prop where
  cap : t.capacity = (t.buckets.length : Int)
  chain : ∀ i k, KeyAt t i k →
    ∃ hm d, PChain t k hm d ∧ i = (hm + d) % t.buckets.length

/-! The package `vm` (`src/vm/vm.go`): string interning on top of the table. -/

/-- A `*String`: the address of a `String` struct, modelled as the number of the
allocation that created it. -/
abbrev Handle := Nat

/-- The struct `vm`: its table `strings` (with the sentinel it shares with every
table), and the number of `String` structs allocated so far. -/
structure vm where
  strings : Heap Handle
  allocated : Nat
  deriving DecidableEq, Repr

/-- The function `newString`: a fresh `String` struct, whose address differs
from that of every struct allocated before. -/
def vm.newString (m : vm) (_s : Key) : Handle × vm :=
  (m.allocated, { m with allocated := m.allocated + 1 })

/-- The method `intern`.  The type assertion `.(*String)` on the nil interface
panics. -/
def vm.intern (fuel : Nat) (m : vm) (s : Key) : Except Fault (Handle × vm) :=
  match Get fuel m.strings s with
  | .error f => .error f
  | .ok (some internedString) => .ok (internedString, m)
  | .ok none =>
    match Set fuel m.strings s (some (m.newString s).1) with
    | .error f => .error f
    | .ok strings =>
      match Get fuel strings s with
      | .error f => .error f
      | .ok none => .error .panic
      | .ok (some p) => .ok (p, { (m.newString s).2 with strings := strings })

/-- The method `String`. -/
def vm.String (fuel : Nat) (m : vm) (s : Key) : Except Fault (Handle × vm) :=
  m.intern fuel s

/-- The constructor `New` of the package `vm`. -/
def vm.New : vm := { strings := initial, allocated := 0 }

/-- A sequence of `String` calls, each of which has to return normally, with
the handles they return. -/
def vm.Strings (fuel : Nat) : List Key → vm → Except Fault (List Handle × vm)
  | [], m => .ok ([], m)
  | s :: rest, m =>
    match m.String fuel s with
    | .error f => .error f
    | .ok (p, m') =>
      match vm.Strings fuel rest m' with
      | .error f => .error f
      | .ok (ps, m'') => .ok (p :: ps, m'')

/-- The invariant of the interning table, with the (content, handle) pairs
`hist` returned so far: the table holds no tombstone, every stored value is the
handle of an allocated struct, no handle is stored under two keys, and every
returned pair is stored. -/
structure vm.Inv (m : vm) (hist : List (Key × Handle)) : Prop where
  wf : ∃ ks, WF m.strings.table ks
  vals : ∀ k v, Holds m.strings.table k v → ∃ p, v = some p ∧ p < m.allocated
  inj : ∀ k k' p, Holds m.strings.table k (some p) → Holds m.strings.table k' (some p) → k = k'
  hist : ∀ s p, (s, p) ∈ hist → Holds m.strings.table s (some p)

/-- A call `Set(key, value)` in progress, for the interleaving of concurrent
calls.  `Set` has three sections: the check `table.willExceedCapacity()`, made
before any lock is taken; `doubleCapacity`, which holds the mutex from entry to
return; and `insert`, made under the mutex that `Set` takes after the check.
`pc` is 0 before the check, 1 before `doubleCapacity` (the check was true), 2
before the locked `insert`, and 3 when the call has returned. -/
structure SetCall (V : Type) where
  key : Key
  value : Option V
  pc : Nat
  deriving DecidableEq, Repr

/-- The next section of a `Set` call, run on the current memory.  A section that
holds the mutex runs without interruption; the check reads `size` and
`capacity` at once. -/
def SetCall.advance {V : Type} (fuel : Nat) (h : Heap V) (c : SetCall V) :
    Except Fault (Heap V × SetCall V) :=
  match c.pc with
  | 0 =>
    if willExceedCapacity h.table then .ok (h, { c with pc := 1 })
    else .ok (h, { c with pc := 2 })
  | 1 =>
    match doubleCapacity fuel h with
    | .error f => .error f
    | .ok h' => .ok (h', { c with pc := 2 })
  | 2 =>
    match insert fuel h c.key c.value with
    | .error f => .error f
    | .ok h' => .ok (h', { c with pc := 3 })
  | _ => .ok (h, c)

/-- Concurrent `Set` calls under a schedule: each element of the schedule names
the call whose next section runs. -/
def interleave {V : Type} (fuel : Nat) :
    List Nat → Heap V → List (SetCall V) → Except Fault (Heap V × List (SetCall V))
  | [], h, calls => .ok (h, calls)
  | i :: rest, h, calls =>
    match calls[i]? with
    | none => interleave fuel rest h calls
    | some c =>
      match c.advance fuel h with
      | .error f => .error f
      | .ok (h', c') => interleave fuel rest h' (calls.set i c')

/-! ## Removal of an absent key -/

theorem removeLoop_of_findLoop_nil {V : Type} (table : hashtable V) (key : Key) :
    ∀ (fuel : Nat) (index visited : Int),
      findLoop table key fuel index visited = .ok .nil →
      removeLoop table key fuel index visited = .ok table := by
  intro fuel
  induction fuel with
  | zero => intro index visited h; simp [findLoop] at h
  | succ n ih =>
    intro index visited h
    unfold findLoop at h
    unfold removeLoop
    by_cases hv : visited = Size table
    · simp [hv]
    · simp only [hv, if_false] at h ⊢
      cases hb : bucketAt table.buckets index with
      | none => simp [hb] at h
      | some e =>
        cases e with
        | nil => simp
        | tombstone =>
          simp only [hb] at h ⊢
          by_cases hk : (Slot.tombstone : Slot V).key? = some key
          · simp [hk] at h
          · simp only [hk, if_false] at h ⊢
            exact ih _ _ h
        | entry k v =>
          simp only [hb] at h ⊢
          by_cases hk : (Slot.entry k v : Slot V).key? = some key
          · simp [hk] at h
          · simp only [hk, if_false] at h ⊢
            exact ih _ _ h

/-- C7: when probing for `key` finds no match (`Has` answers false), `Remove`
returns and leaves the whole state unchanged: size, capacity, every bucket and
the sentinel; this holds for every table state, reachable or not. -/
theorem Remove_noop_of_not_Has {V : Type} (fuel : Nat) (h : Heap V) (key : Key)
    (hHas : Has fuel h key = .ok false) : Remove fuel h key = .ok h := by
  unfold Has find at hHas
  unfold Remove
  by_cases he : IsEmpty h.table = true
  · simp [he]
  · simp only [he] at hHas ⊢
    cases hs : startIndex h.table key with
    | none => simp [hs] at hHas
    | some index =>
      simp only [hs] at hHas ⊢
      cases hf : findLoop h.table key fuel index 0 with
      | error f => simp [hf] at hHas
      | ok e =>
        cases e with
        | nil =>
          rw [removeLoop_of_findLoop_nil h.table key fuel index 0 hf]
          simp
        | tombstone => simp [hf] at hHas
        | entry k v => simp [hf] at hHas

/-- C7, at a table with one live key and one tombstone that stops the probe. -/
theorem Remove_noop_of_not_Has_witness :
    Has 3 (⟨none, ⟨1, 3, [.tombstone, .nil, .entry [97] (some 1)]⟩⟩ : Heap Nat) [98]
        = .ok false ∧
      Remove 3 (⟨none, ⟨1, 3, [.tombstone, .nil, .entry [97] (some 1)]⟩⟩ : Heap Nat) [98]
        = .ok ⟨none, ⟨1, 3, [.tombstone, .nil, .entry [97] (some 1)]⟩⟩ :=
  ⟨by decide, Remove_noop_of_not_Has 3 _ [98] (by decide)⟩

/-! ## Behaviour at concrete inputs -/

/-- C1: on the table built by `Set("a",1); Set("b",2); Remove("b"); Remove("a")`
(capacity 3, two tombstones, size 0), `Set("c",3)` returns and stores the entry
behind a tombstone, and the `Get("c")` that follows gives up after `size = 1`
visited bucket and returns nil, not 3. -/
theorem Get_after_Set_misses :
    run 4 [.set [97] (some 1), .set [98] (some 2), .remove [98], .remove [97]]
        (initial : Heap Nat)
      = .ok ⟨none, ⟨0, 3, [.tombstone, .nil, .tombstone]⟩⟩ ∧
    Set 4 (⟨none, ⟨0, 3, [.tombstone, .nil, .tombstone]⟩⟩ : Heap Nat) [99] (some 3)
      = .ok ⟨none, ⟨1, 3, [.tombstone, .entry [99] (some 3), .tombstone]⟩⟩ ∧
    ∀ fuel : Nat,
      Get (fuel + 2)
          (⟨none, ⟨1, 3, [.tombstone, .entry [99] (some 3), .tombstone]⟩⟩ : Heap Nat) [99]
        = .ok none := by
  refine ⟨by decide, by decide, ?_⟩
  intro fuel
  rfl

/-- C3: after `Set("a",1); Set("b",2); Remove("a"); Remove("b")` the reference
map is empty, but the second `Remove` stops at the tombstone of `"a"` after
`size = 1` visited bucket, so `"b"` stays and `Size()` is 1. -/
theorem Size_differs_from_reference :
    run 4 [.set [97] (some 1), .set [98] (some 2), .remove [97], .remove [98]]
        (initial : Heap Nat)
      = .ok ⟨none, ⟨1, 3, [.entry [98] (some 2), .nil, .tombstone]⟩⟩ ∧
    Size (⟨1, 3, [.entry [98] (some 2), .nil, .tombstone]⟩ : hashtable Nat) = 1 ∧
    refSize (refRun [.set [97] (some 1), .set [98] (some 2), .remove [97], .remove [98]]
        ([] : RefMap Nat)) = 0 := by
  decide

/-- C4: `"a"` and `"b"` share the probe chain that starts at bucket 2 of the
capacity 3 table; `Get("b")` returns 2 before `Remove("a")` and nil after it,
and `Has("b")` is then false. -/
theorem Remove_hides_chain_neighbour :
    run 4 [.set [97] (some 1), .set [98] (some 2)] (initial : Heap Nat)
      = .ok ⟨none, ⟨2, 3, [.entry [98] (some 2), .nil, .entry [97] (some 1)]⟩⟩ ∧
    Int.tmod (hash [97]) 3 = 2 ∧ Int.tmod (hash [98]) 3 = 2 ∧
    Get 4 (⟨none, ⟨2, 3, [.entry [98] (some 2), .nil, .entry [97] (some 1)]⟩⟩ : Heap Nat) [98]
      = .ok (some 2) ∧
    Remove 4 (⟨none, ⟨2, 3, [.entry [98] (some 2), .nil, .entry [97] (some 1)]⟩⟩ : Heap Nat)
        [97]
      = .ok ⟨none, ⟨1, 3, [.entry [98] (some 2), .nil, .tombstone]⟩⟩ ∧
    (∀ fuel : Nat,
      Get (fuel + 2) (⟨none, ⟨1, 3, [.entry [98] (some 2), .nil, .tombstone]⟩⟩ : Heap Nat) [98]
        = .ok none) ∧
    (∀ fuel : Nat,
      Has (fuel + 2) (⟨none, ⟨1, 3, [.entry [98] (some 2), .nil, .tombstone]⟩⟩ : Heap Nat) [98]
        = .ok false) := by
  refine ⟨by decide, by decide, by decide, by decide, by decide, ?_, ?_⟩
  · intro fuel; rfl
  · intro fuel; rfl

/-- C5: with the key `"tombstone"`: after `Set("a",1); Set("b",2); Set("c",3);
Remove("b"); Set("tombstone",9)` the call `Remove("tombstone")` matches the
sentinel in bucket 0, decrements the size and returns; afterwards
`Has("tombstone")` is true and `Get("tombstone")` returns 9. -/
theorem Has_tombstone_after_Remove :
    run 8 [.set [97] (some 1), .set [98] (some 2), .set [99] (some 3), .remove [98],
          .set tombstoneKey (some 9)] (initial : Heap Nat)
      = .ok ⟨some 9, ⟨2, 7, [.tombstone, .nil, .entry [99] (some 3), .nil, .nil, .nil,
              .entry [97] (some 1)]⟩⟩ ∧
    Remove 8 (⟨some 9, ⟨2, 7, [.tombstone, .nil, .entry [99] (some 3), .nil, .nil, .nil,
              .entry [97] (some 1)]⟩⟩ : Heap Nat) tombstoneKey
      = .ok ⟨some 9, ⟨1, 7, [.tombstone, .nil, .entry [99] (some 3), .nil, .nil, .nil,
              .entry [97] (some 1)]⟩⟩ ∧
    (∀ fuel : Nat,
      Has (fuel + 1) (⟨some 9, ⟨1, 7, [.tombstone, .nil, .entry [99] (some 3), .nil, .nil,
              .nil, .entry [97] (some 1)]⟩⟩ : Heap Nat) tombstoneKey = .ok true) ∧
    (∀ fuel : Nat,
      Get (fuel + 1) (⟨some 9, ⟨1, 7, [.tombstone, .nil, .entry [99] (some 3), .nil, .nil,
              .nil, .entry [97] (some 1)]⟩⟩ : Heap Nat) tombstoneKey = .ok (some 9)) := by
  refine ⟨by decide, by decide, ?_, ?_⟩
  · intro fuel; rfl
  · intro fuel; rfl

set_option maxRecDepth 100000 in
/-- C6: two keys that were never passed to `Set`.  After `Set("a",1);
Set("b",2); Set("c",3); Remove("b")` the sentinel sits in bucket 0, the start
bucket of `"tombstone"`, and `Has("tombstone")` is true.  After `Set("a",1);
Set("b",2)` the start index of `"keythatdoesnotexist"` is `-1` and `Has` and
`Get` panic on it. -/
theorem Has_of_never_set_key :
    run 8 [.set [97] (some 1), .set [98] (some 2), .set [99] (some 3), .remove [98]]
        (initial : Heap Nat)
      = .ok ⟨none, ⟨2, 7, [.tombstone, .nil, .entry [99] (some 3), .nil, .nil, .nil,
              .entry [97] (some 1)]⟩⟩ ∧
    (∀ fuel : Nat,
      Has (fuel + 1) (⟨none, ⟨2, 7, [.tombstone, .nil, .entry [99] (some 3), .nil, .nil, .nil,
              .entry [97] (some 1)]⟩⟩ : Heap Nat) tombstoneKey = .ok true) ∧
    run 4 [.set [97] (some 1), .set [98] (some 2)] (initial : Heap Nat)
      = .ok ⟨none, ⟨2, 3, [.entry [98] (some 2), .nil, .entry [97] (some 1)]⟩⟩ ∧
    (∀ fuel : Nat,
      Has (fuel + 1) (⟨none, ⟨2, 3, [.entry [98] (some 2), .nil, .entry [97] (some 1)]⟩⟩ :
          Heap Nat) keythatdoesnotexist = .error .panic) ∧
    (∀ fuel : Nat,
      Get (fuel + 1) (⟨none, ⟨2, 3, [.entry [98] (some 2), .nil, .entry [97] (some 1)]⟩⟩ :
          Heap Nat) keythatdoesnotexist = .error .panic) := by
  refine ⟨by decide, ?_, by decide, ?_, ?_⟩
  · intro fuel; rfl
  · intro fuel; rfl
  · intro fuel; rfl

/-- C8: a second `Set` on the same key that changes `Size()`.  The table is built
by `Set` on `"b","f","c","g","i"`, `Remove("b")`, `Set("d",6)` and
`Remove("tombstone")`, which matches the sentinel left by `"b"` and decrements
the size to 4 with five live entries.  `Set("a",7)` fills the last free bucket
(size 5); `Set("a",8)` grows, the rehash counts the six live entries, and the
size is 6. -/
theorem second_Set_changes_Size :
    run 8 [.set [98] (some 1), .set [102] (some 2), .set [99] (some 3), .set [103] (some 4),
          .set [105] (some 5), .remove [98], .set [100] (some 6), .remove tombstoneKey]
        (initial : Heap Nat)
      = .ok ⟨none, ⟨4, 7, [.tombstone, .entry [102] (some 2), .entry [99] (some 3),
              .entry [103] (some 4), .entry [105] (some 5), .entry [100] (some 6), .nil]⟩⟩ ∧
    Set 8 (⟨none, ⟨4, 7, [.tombstone, .entry [102] (some 2), .entry [99] (some 3),
              .entry [103] (some 4), .entry [105] (some 5), .entry [100] (some 6), .nil]⟩⟩ :
          Heap Nat) [97] (some 7)
      = .ok ⟨none, ⟨5, 7, [.tombstone, .entry [102] (some 2), .entry [99] (some 3),
              .entry [103] (some 4), .entry [105] (some 5), .entry [100] (some 6),
              .entry [97] (some 7)]⟩⟩ ∧
    (Set 8 (⟨none, ⟨5, 7, [.tombstone, .entry [102] (some 2), .entry [99] (some 3),
              .entry [103] (some 4), .entry [105] (some 5), .entry [100] (some 6),
              .entry [97] (some 7)]⟩⟩ : Heap Nat) [97] (some 8)).map (fun h => Size h.table)
      = .ok 6 := by
  decide

set_option maxRecDepth 100000 in
/-- C9: the hash of `"keythatdoesnotexist"` is negative and its remainder
modulo 3 is `-1`.  On the table built by `Set("a",1); Set("b",2)` (capacity 3)
`Get`, `Has` and `Remove` on that key index the bucket array at `-1` and
panic; `Set` grows first and panics at index `-5` of the seven buckets. -/
theorem negative_bucket_index :
    hash keythatdoesnotexist = -9036608790490370752 ∧
    run 4 [.set [97] (some 1), .set [98] (some 2)] (initial : Heap Nat)
      = .ok ⟨none, ⟨2, 3, [.entry [98] (some 2), .nil, .entry [97] (some 1)]⟩⟩ ∧
    startIndex (⟨2, 3, [.entry [98] (some 2), .nil, .entry [97] (some 1)]⟩ : hashtable Nat)
        keythatdoesnotexist = some (-1) ∧
    bucketAt ([.entry [98] (some 2), .nil, .entry [97] (some 1)] : List (Slot Nat)) (-1)
      = none ∧
    (∀ fuel : Nat,
      Get (fuel + 1) (⟨none, ⟨2, 3, [.entry [98] (some 2), .nil, .entry [97] (some 1)]⟩⟩ :
          Heap Nat) keythatdoesnotexist = .error .panic) ∧
    (∀ fuel : Nat,
      Remove (fuel + 1) (⟨none, ⟨2, 3, [.entry [98] (some 2), .nil, .entry [97] (some 1)]⟩⟩ :
          Heap Nat) keythatdoesnotexist = .error .panic) ∧
    (∀ fuel : Nat,
      Set (fuel + 1) (⟨none, ⟨2, 3, [.entry [98] (some 2), .nil, .entry [97] (some 1)]⟩⟩ :
          Heap Nat) keythatdoesnotexist (some 3) = .error .panic) := by
  refine ⟨by decide, by decide, by decide, by decide, ?_, ?_, ?_⟩
  · intro fuel; rfl
  · intro fuel; rfl
  · intro fuel; rfl

theorem insertLoop_full_table (fuel : Nat) :
    insertLoop [100] (some 4) fuel
        (⟨none, ⟨1, 3, [.tombstone, .entry [99] (some 3), .tombstone]⟩⟩ : Heap Nat) 0
      = .error .outOfFuel ∧
    insertLoop [100] (some 4) fuel
        (⟨none, ⟨1, 3, [.tombstone, .entry [99] (some 3), .tombstone]⟩⟩ : Heap Nat) 1
      = .error .outOfFuel ∧
    insertLoop [100] (some 4) fuel
        (⟨none, ⟨1, 3, [.tombstone, .entry [99] (some 3), .tombstone]⟩⟩ : Heap Nat) 2
      = .error .outOfFuel := by
  induction fuel with
  | zero => exact ⟨rfl, rfl, rfl⟩
  | succ n ih =>
    obtain ⟨h0, h1, h2⟩ := ih
    exact ⟨Eq.trans rfl h1, Eq.trans rfl h2, Eq.trans rfl h0⟩

/-- C10: after `Set("a",1); Set("b",2); Remove("b"); Remove("a"); Set("c",3)`
the three buckets hold two tombstones and `"c"`, the size is 1, so
`Set("d",4)` does not grow and its probe loop never finds a nil bucket: it is
still running after any number of probe steps. -/
theorem Set_never_returns :
    run 4 [.set [97] (some 1), .set [98] (some 2), .remove [98], .remove [97],
          .set [99] (some 3)] (initial : Heap Nat)
      = .ok ⟨none, ⟨1, 3, [.tombstone, .entry [99] (some 3), .tombstone]⟩⟩ ∧
    ∀ fuel : Nat,
      Set fuel (⟨none, ⟨1, 3, [.tombstone, .entry [99] (some 3), .tombstone]⟩⟩ : Heap Nat)
          [100] (some 4) = .error .outOfFuel := by
  refine ⟨by decide, ?_⟩
  intro fuel
  exact Eq.trans rfl (insertLoop_full_table fuel).2.2

/-! ## Tables without tombstones: the probe chain invariant -/

theorem bucketAt_natCast {V : Type} (l : List (Slot V)) (n : Nat) :
    bucketAt l (n : Int) = l[n]? := by
  unfold bucketAt
  have h : ¬ ((n : Int) < 0) := by omega
  simp [h]

theorem bucketAt_neg {V : Type} (l : List (Slot V)) (i : Int) (h : i < 0) :
    bucketAt l i = none := by
  unfold bucketAt
  simp [h]

theorem tmod_succ_natCast (n len : Nat) :
    Int.tmod ((n : Int) + 1) (len : Int) = (((n + 1) % len : Nat) : Int) := by
  rw [Int.ofNat_tmod]
  push_cast
  rfl

theorem next_index (hm d len : Nat) :
    Int.tmod ((((hm + d) % len : Nat) : Int) + 1) (len : Int)
      = (((hm + (d + 1)) % len : Nat) : Int) := by
  rw [tmod_succ_natCast, Nat.mod_add_mod, Nat.add_assoc]

theorem mod_add_inj (hm a b len : Nat) (ha : a < len) (hb : b < len)
    (e : (hm + a) % len = (hm + b) % len) : a = b :=
  Nat.ModEq.eq_of_lt_of_lt (Nat.ModEq.add_left_cancel' hm e) ha hb

theorem KeyAt_lt {V : Type} {t : hashtable V} {i : Nat} {k : Key} (h : KeyAt t i k) :
    i < t.buckets.length := by
  obtain ⟨v, hv⟩ := h
  exact (List.getElem?_eq_some.1 hv).1

theorem KeyAt_unique_key {V : Type} {t : hashtable V} {i : Nat} {k k' : Key}
    (h : KeyAt t i k) (h' : KeyAt t i k') : k = k' := by
  obtain ⟨v, hv⟩ := h
  obtain ⟨w, hw⟩ := h'
  rw [hv] at hw
  cases hw
  rfl

/-- A key whose probe chain reaches distance `d` without meeting it is not at a
smaller distance; a live entry of the key at distance `d'` forces `d ≤ d'`. -/
theorem Chain_le {V : Type} {t : hashtable V} {k : Key} {hm d hm' d' : Nat}
    (hc : Chain t k hm d) (hc' : Chain t k hm' d')
    (hk : KeyAt t ((hm' + d') % t.buckets.length) k) : d ≤ d' := by
  by_contra hlt
  have hlt : d' < d := by omega
  have e : hm = hm' := by
    have := hc.1.symm.trans hc'.1
    exact_mod_cast this
  subst e
  obtain ⟨k', hne, hk'⟩ := hc.2 d' hlt
  exact hne (KeyAt_unique_key hk' hk)

/-- In a table that satisfies the invariant a key has one bucket. -/
theorem WF.slot_unique {V : Type} {t : hashtable V} {ks : List Key} (wf : WF t ks)
    {i j : Nat} {k : Key} (hi : KeyAt t i k) (hj : KeyAt t j k) : i = j := by
  obtain ⟨hm, d, hc, rfl⟩ := wf.chain i k hi
  obtain ⟨hm', d', hc', rfl⟩ := wf.chain j k hj
  have e : hm = hm' := by
    have := hc.1.symm.trans hc'.1
    exact_mod_cast this
  subst e
  have h1 : d ≤ d' := Chain_le hc hc' hj
  have h2 : d' ≤ d := Chain_le hc' hc hi
  have : d = d' := by omega
  rw [this]

theorem WF.holds_unique {V : Type} {t : hashtable V} {ks : List Key} (wf : WF t ks)
    {k : Key} {v w : Option V} (hv : Holds t k v) (hw : Holds t k w) : v = w := by
  obtain ⟨i, hi⟩ := hv
  obtain ⟨j, hj⟩ := hw
  have e : i = j := wf.slot_unique ⟨v, hi⟩ ⟨w, hj⟩
  subst e
  rw [hi] at hj
  cases hj
  rfl

theorem KeyAt_key {V : Type} {t : hashtable V} {i : Nat} {k : Key} (h : KeyAt t i k) :
    ((t.buckets[i]?).bind Slot.key?).getD [] = k := by
  obtain ⟨v, hv⟩ := h
  simp [hv, Slot.key?]

/-- The distance of a live entry from its start bucket is below the bucket
count. -/
theorem Chain_lt_length {V : Type} {t : hashtable V} {k : Key} {hm d : Nat}
    (hc : Chain t k hm d) (hk : KeyAt t ((hm + d) % t.buckets.length) k) :
    d < t.buckets.length := by
  by_contra hge
  have hge : t.buckets.length ≤ d := by omega
  obtain ⟨k', hne, hk'⟩ := hc.2 (d - t.buckets.length) (by have := KeyAt_lt hk; omega)
  have e : (hm + (d - t.buckets.length)) % t.buckets.length = (hm + d) % t.buckets.length := by
    have : hm + d = hm + (d - t.buckets.length) + t.buckets.length := by omega
    rw [this, Nat.add_mod_right]
  rw [e] at hk'
  exact hne (KeyAt_unique_key hk' hk)

/-- The buckets of a probe chain hold pairwise different keys of the table, so
the distance of a live entry from its start bucket is below the size. -/
theorem WF.chain_lt_size {V : Type} {t : hashtable V} {ks : List Key} (wf : WF t ks)
    {k : Key} {hm d : Nat} (hc : Chain t k hm d)
    (hk : KeyAt t ((hm + d) % t.buckets.length) k) : d < ks.length := by
  have hlen : d < t.buckets.length := Chain_lt_length hc hk
  have hat : ∀ j, j ≤ d → ∃ k', KeyAt t ((hm + j) % t.buckets.length) k' := by
    intro j hj
    rcases Nat.lt_or_ge j d with h | h
    · obtain ⟨k', _, hk'⟩ := hc.2 j h
      exact ⟨k', hk'⟩
    · have : j = d := by omega
      subst this
      exact ⟨k, hk⟩
  let f : Nat → Key := fun j => ((t.buckets[(hm + j) % t.buckets.length]?).bind Slot.key?).getD []
  have hf : ∀ j, j ≤ d → KeyAt t ((hm + j) % t.buckets.length) (f j) := by
    intro j hj
    obtain ⟨k', hk'⟩ := hat j hj
    have : f j = k' := KeyAt_key hk'
    rw [this]
    exact hk'
  have hnd : ((List.range (d + 1)).map f).Nodup := by
    apply List.Nodup.map_on _ (List.nodup_range _)
    intro x hx y hy hxy
    have hx' : x ≤ d := by have := List.mem_range.1 hx; omega
    have hy' : y ≤ d := by have := List.mem_range.1 hy; omega
    have h1 := hf x hx'
    have h2 := hf y hy'
    rw [hxy] at h1
    have := wf.slot_unique h1 h2
    exact mod_add_inj hm x y _ (by omega) (by omega) this
  have hsub : (List.range (d + 1)).map f ⊆ ks := by
    intro x hx
    obtain ⟨j, hj, rfl⟩ := List.mem_map.1 hx
    have hj' : j ≤ d := by have := List.mem_range.1 hj; omega
    exact (wf.keys _).2 ⟨_, hf j hj'⟩
  have := (List.subperm_of_subset hnd hsub).length_le
  simp at this
  omega

/-- The probe of `find` walks the chain of a live key up to its entry. -/
theorem findLoop_chain {V : Type} {t : hashtable V} {ks : List Key} (wf : WF t ks)
    {k : Key} {v : Option V} {hm d : Nat} (hc : Chain t k hm d)
    (hv : t.buckets[(hm + d) % t.buckets.length]? = some (Slot.entry k v)) :
    ∀ (n j : Nat), j + n = d → ∀ fuel : Nat, n < fuel →
      findLoop t k fuel (((hm + j) % t.buckets.length : Nat) : Int) (j : Int)
        = .ok (Slot.entry k v) := by
  have hsz : d < ks.length := wf.chain_lt_size hc ⟨v, hv⟩
  intro n
  induction n with
  | zero =>
    intro j hj fuel hfuel
    have hj : j = d := by omega
    subst hj
    obtain ⟨f, rfl⟩ : ∃ f, fuel = f + 1 := ⟨fuel - 1, by omega⟩
    unfold findLoop
    have hne : ¬ ((j : Int) = Size t) := by
      unfold Size
      rw [wf.size]
      omega
    simp only [hne, if_false, bucketAt_natCast, hv, Slot.key?, if_true]
  | succ n ih =>
    intro j hj fuel hfuel
    obtain ⟨f, rfl⟩ : ∃ f, fuel = f + 1 := ⟨fuel - 1, by omega⟩
    unfold findLoop
    have hne : ¬ ((j : Int) = Size t) := by
      unfold Size
      rw [wf.size]
      omega
    obtain ⟨k', hk', w, hw⟩ := hc.2 j (by omega)
    have hkey : ¬ ((Slot.entry k' w : Slot V).key? = some k) := by
      simp [Slot.key?, hk']
    simp only [hne, if_false, bucketAt_natCast, hw, hkey]
    rw [wf.cap, next_index]
    have := ih (j + 1) (by omega) f (by omega)
    exact_mod_cast this

/-- On a table that satisfies the invariant `find` returns the entry of every
key the table holds, with any fuel above the size. -/
theorem WF.find_of_holds {V : Type} {t : hashtable V} {ks : List Key} (wf : WF t ks)
    {k : Key} {v : Option V} (hv : Holds t k v) (fuel : Nat) (hfuel : t.size < (fuel : Int)) :
    find fuel t k = .ok (Slot.entry k v) := by
  obtain ⟨i, hi⟩ := hv
  obtain ⟨hm, d, hc, rfl⟩ := wf.chain i k ⟨v, hi⟩
  have hsz : d < ks.length := wf.chain_lt_size hc ⟨v, hi⟩
  have hlen : 0 < t.buckets.length := by
    have := KeyAt_lt (⟨v, hi⟩ : KeyAt t _ k)
    omega
  have hcap : ¬ (t.capacity = 0) := by rw [wf.cap]; omega
  have hemp : IsEmpty t = false := by
    unfold IsEmpty Size
    rw [wf.size]
    simp only [decide_eq_false_iff_not]
    omega
  have hhm : hm < t.buckets.length := by
    have h1 := Int.tmod_lt_of_pos (hash k) (b := t.capacity) (by rw [wf.cap]; omega)
    rw [hc.1, wf.cap] at h1
    omega
  unfold find startIndex
  simp only [hemp, hcap, if_false, hc.1]
  have := findLoop_chain wf hc hi d 0 (by omega) fuel (by rw [wf.size] at hfuel; omega)
  simp only [Nat.add_zero, Nat.mod_eq_of_lt hhm] at this
  exact_mod_cast this

/-! ## `insert` on a table without tombstones -/

theorem KeyAt_set {V : Type} {t t' : hashtable V} {idx : Nat} {k : Key} {v : Option V}
    (hb : t'.buckets = t.buckets.set idx (Slot.entry k v)) (hidx : idx < t.buckets.length)
    (i : Nat) (x : Key) :
    KeyAt t' i x ↔ (i = idx ∧ x = k) ∨ (i ≠ idx ∧ KeyAt t i x) := by
  unfold KeyAt
  rw [hb]
  by_cases h : idx = i
  · subst h
    simp only [List.getElem?_set, if_true, hidx, ne_eq, not_true_eq_false, false_and, or_false,
      true_and]
    constructor
    · rintro ⟨w, hw⟩
      cases hw
      rfl
    · rintro rfl
      exact ⟨v, rfl⟩
  · have h' : ¬ (i = idx) := fun e => h e.symm
    simp only [List.getElem?_set, h, if_false, h', false_and, false_or, ne_eq, not_false_eq_true,
      true_and]

theorem Chain_mono {V : Type} {t t' : hashtable V} (hcap : t'.capacity = t.capacity)
    (hlen : t'.buckets.length = t.buckets.length)
    (hmono : ∀ i x, KeyAt t i x → KeyAt t' i x) {k : Key} {hm d : Nat}
    (hc : Chain t k hm d) : Chain t' k hm d := by
  refine ⟨by rw [hcap]; exact hc.1, ?_⟩
  intro j hj
  obtain ⟨k', hne, hk'⟩ := hc.2 j hj
  exact ⟨k', hne, by rw [hlen]; exact hmono _ _ hk'⟩

/-- Writing the entry `(k, v)` into the bucket at the end of the probe chain of
`k` keeps the invariant, for the key list `ks'` that accounts for `k`. -/
theorem WF.set_entry {V : Type} {t t' : hashtable V} {ks ks' : List Key} (wf : WF t ks)
    {idx : Nat} {k : Key} {v : Option V} {hm d : Nat}
    (hb : t'.buckets = t.buckets.set idx (Slot.entry k v)) (hidx : idx < t.buckets.length)
    (hcap : t'.capacity = t.capacity) (hc : Chain t k hm d)
    (hd : idx = (hm + d) % t.buckets.length)
    (hmono : ∀ i x, KeyAt t i x → KeyAt t' i x)
    (hnd : ks'.Nodup) (hsize : t'.size = (ks'.length : Int))
    (hks : ∀ x, x ∈ ks' ↔ x = k ∨ x ∈ ks) : WF t' ks' := by
  have hlen : t'.buckets.length = t.buckets.length := by rw [hb, List.length_set]
  refine ⟨by rw [hcap, hlen]; exact wf.cap, ?_, hnd, hsize, ?_, ?_⟩
  · intro i hi
    rw [hb, List.getElem?_set] at hi
    by_cases h : idx = i
    · simp [h, hidx] at hi
    · simp only [h, if_false] at hi
      exact wf.noTomb i hi
  · intro x
    rw [hks x, wf.keys x]
    constructor
    · rintro (rfl | ⟨i, hi⟩)
      · exact ⟨idx, (KeyAt_set hb hidx idx x).2 (Or.inl ⟨rfl, rfl⟩)⟩
      · exact ⟨i, hmono i x hi⟩
    · rintro ⟨i, hi⟩
      rcases (KeyAt_set hb hidx i x).1 hi with ⟨_, rfl⟩ | ⟨_, h⟩
      · exact Or.inl rfl
      · exact Or.inr ⟨i, h⟩
  · intro i x hi
    rcases (KeyAt_set hb hidx i x).1 hi with ⟨rfl, rfl⟩ | ⟨_, h⟩
    · exact ⟨hm, d, Chain_mono hcap hlen hmono hc, by rw [hlen]; exact hd⟩
    · obtain ⟨hm', d', hc', e⟩ := wf.chain i x h
      exact ⟨hm', d', Chain_mono hcap hlen hmono hc', by rw [hlen]; exact e⟩

theorem Chain_start_eq {V : Type} {t : hashtable V} {k : Key} {hm d hm' d' : Nat}
    (hc : Chain t k hm d) (hc' : Chain t k hm' d') : hm = hm' := by
  have := hc.1.symm.trans hc'.1
  exact_mod_cast this

theorem Chain_succ {V : Type} {t : hashtable V} {k k1 : Key} {v1 : Option V} {hm d : Nat}
    (hc : Chain t k hm d)
    (hb : t.buckets[(hm + d) % t.buckets.length]? = some (Slot.entry k1 v1)) (hk : k1 ≠ k) :
    Chain t k hm (d + 1) := by
  refine ⟨hc.1, ?_⟩
  intro j hj
  rcases Nat.lt_or_ge j d with h1 | h1
  · exact hc.2 j h1
  · have : j = d := by omega
    subst this
    exact ⟨k1, hk, v1, hb⟩

/-- The probe loop of `insert`, started anywhere on the probe chain of `k` in a
table without tombstones: if it returns, it has stored `(k, v)` and kept the
invariant. -/
theorem insertLoop_spec {V : Type} (k : Key) (v : Option V) (tv : Option V)
    (t : hashtable V) (ks : List Key) (wf : WF t ks) (hm : Nat) :
    ∀ (fuel d : Nat) (h' : Heap V), Chain t k hm d →
      insertLoop k v fuel ⟨tv, t⟩ (((hm + d) % t.buckets.length : Nat) : Int) = .ok h' →
      InsertPost tv t ks k v h' := by
  intro fuel
  induction fuel with
  | zero =>
    intro d h' _ h
    simp [insertLoop] at h
  | succ n ih =>
    intro d h' hc h
    unfold insertLoop at h
    dsimp only at h
    rw [bucketAt_natCast] at h
    cases hb : t.buckets[(hm + d) % t.buckets.length]? with
    | none => rw [hb] at h; simp at h
    | some s =>
      have hidx : (hm + d) % t.buckets.length < t.buckets.length :=
        (List.getElem?_eq_some.1 hb).1
      cases s with
      | nil =>
        rw [hb] at h
        simp only [Int.toNat_ofNat, Except.ok.injEq] at h
        subst h
        have hfree : ∀ x, ¬ KeyAt t ((hm + d) % t.buckets.length) x := by
          rintro x ⟨w, hw⟩
          rw [hb] at hw
          cases hw
        have hnot : k ∉ ks := by
          intro hin
          obtain ⟨i, hi⟩ := (wf.keys k).1 hin
          obtain ⟨hm', d', hc', rfl⟩ := wf.chain i k hi
          have e : hm = hm' := Chain_start_eq hc hc'
          subst e
          have h1 : d ≤ d' := Chain_le hc hc' hi
          rcases Nat.lt_or_ge d d' with hlt | hge
          · obtain ⟨k', _, hk'⟩ := hc'.2 d hlt
            exact hfree _ hk'
          · have : d = d' := by omega
            subst this
            exact hfree _ hi
        have hmono : ∀ i x, KeyAt t i x →
            KeyAt (⟨t.size + 1, t.capacity,
              t.buckets.set ((hm + d) % t.buckets.length) (Slot.entry k v)⟩ : hashtable V)
              i x := by
          intro i x hi
          apply (KeyAt_set rfl hidx i x).2
          right
          refine ⟨?_, hi⟩
          rintro rfl
          exact hfree _ hi
        have hks : ∀ x, x ∈ k :: ks ↔ x = k ∨ x ∈ ks := fun x => List.mem_cons
        refine ⟨rfl, rfl, k :: ks,
          wf.set_entry rfl hidx rfl hc rfl hmono (List.nodup_cons.2 ⟨hnot, wf.nodup⟩)
            (by simp [wf.size]) hks,
          hks, ⟨(hm + d) % t.buckets.length, by simp [hidx]⟩, ?_⟩
        rintro k' _ w ⟨i, hi⟩
        refine ⟨i, ?_⟩
        have hne : (hm + d) % t.buckets.length ≠ i := by
          rintro rfl
          exact hfree _ ⟨w, hi⟩
        simp [List.getElem?_set_ne hne, hi]
      | tombstone => exact absurd hb (wf.noTomb _)
      | entry k1 v1 =>
        rw [hb] at h
        by_cases hk : k1 = k
        · subst hk
          simp only [Int.toNat_ofNat, if_true, Except.ok.injEq] at h
          subst h
          have hmono : ∀ i x, KeyAt t i x →
              KeyAt (⟨t.size, t.capacity,
                t.buckets.set ((hm + d) % t.buckets.length) (Slot.entry k1 v)⟩ : hashtable V)
                i x := by
            intro i x hi
            apply (KeyAt_set rfl hidx i x).2
            by_cases e : i = (hm + d) % t.buckets.length
            · left
              subst e
              exact ⟨rfl, KeyAt_unique_key hi ⟨v1, hb⟩⟩
            · right
              exact ⟨e, hi⟩
          have hin : k1 ∈ ks := (wf.keys k1).2 ⟨_, v1, hb⟩
          have hks : ∀ x, x ∈ ks ↔ x = k1 ∨ x ∈ ks := by
            intro x
            constructor
            · intro hx; exact Or.inr hx
            · rintro (rfl | hx)
              · exact hin
              · exact hx
          refine ⟨rfl, rfl, ks,
            wf.set_entry rfl hidx rfl hc rfl hmono wf.nodup wf.size hks,
            hks, ⟨(hm + d) % t.buckets.length, by simp [hidx]⟩, ?_⟩
          · rintro k' hne w ⟨i, hi⟩
            refine ⟨i, ?_⟩
            have hne' : (hm + d) % t.buckets.length ≠ i := by
              rintro rfl
              exact hne (KeyAt_unique_key ⟨w, hi⟩ ⟨v1, hb⟩)
            simp [List.getElem?_set_ne hne', hi]
        · simp only [hk, if_false] at h
          rw [wf.cap, next_index] at h
          exact ih (d + 1) h' (Chain_succ hc hb hk) h

theorem insertLoop_neg {V : Type} (k : Key) (v : Option V) (fuel : Nat) (h : Heap V)
    (index : Int) (hneg : index < 0) (h' : Heap V) :
    insertLoop k v fuel h index ≠ .ok h' := by
  cases fuel with
  | zero => simp [insertLoop]
  | succ n =>
    unfold insertLoop
    rw [bucketAt_neg _ _ hneg]
    simp

/-- A returning `insert` on a table without tombstones. -/
theorem insert_spec {V : Type} (fuel : Nat) (tv : Option V) (t : hashtable V) (ks : List Key)
    (wf : WF t ks) (k : Key) (v : Option V) (h' : Heap V)
    (h : insert fuel ⟨tv, t⟩ k v = .ok h') : InsertPost tv t ks k v h' := by
  unfold insert startIndex at h
  dsimp only at h
  by_cases hcap : t.capacity = 0
  · simp [hcap] at h
  · simp only [hcap, if_false] at h
    by_cases hneg : Int.tmod (hash k) t.capacity < 0
    · exact absurd h (insertLoop_neg k v fuel _ _ hneg h')
    · have hpos : 0 < t.capacity := by
        have := wf.cap
        omega
      have hlt := Int.tmod_lt_of_pos (hash k) hpos
      obtain ⟨hm, hhm⟩ : ∃ hm : Nat, Int.tmod (hash k) t.capacity = (hm : Int) :=
        ⟨(Int.tmod (hash k) t.capacity).toNat, (Int.toNat_of_nonneg (by omega)).symm⟩
      have hlen : hm < t.buckets.length := by
        have := wf.cap
        omega
      have hc : Chain t k hm 0 := ⟨hhm, fun j hj => absurd hj (Nat.not_lt_zero j)⟩
      have := insertLoop_spec k v tv t ks wf hm fuel 0 h' hc
      rw [Nat.add_zero, Nat.mod_eq_of_lt hlen, ← hhm] at this
      exact this h

theorem WF_empty {V : Type} (c : Int) (hc : 0 ≤ c) :
    WF (⟨0, c, List.replicate c.toNat Slot.nil⟩ : hashtable V) [] := by
  refine ⟨?_, ?_, List.nodup_nil, rfl, ?_, ?_⟩
  · simp only [List.length_replicate]
    exact (Int.toNat_of_nonneg hc).symm
  · intro i hi
    simp only [List.getElem?_replicate] at hi
    split at hi <;> simp at hi
  · intro k
    simp only [List.not_mem_nil, false_iff, not_exists]
    rintro i ⟨w, hw⟩
    simp only [List.getElem?_replicate] at hw
    split at hw <;> simp at hw
  · rintro i k ⟨w, hw⟩
    simp only [List.getElem?_replicate] at hw
    split at hw <;> simp at hw

theorem WF.pairwise_buckets {V : Type} {t : hashtable V} {ks : List Key} (wf : WF t ks) :
    t.buckets.Pairwise DistinctKey := by
  rw [List.pairwise_iff_getElem]
  intro i j hi hj hij k v w h1 h2
  have e1 : t.buckets[i]? = some (Slot.entry k v) := by
    rw [List.getElem?_eq_getElem hi, h1]
  have e2 : t.buckets[j]? = some (Slot.entry k w) := by
    rw [List.getElem?_eq_getElem hj, h2]
  have := wf.slot_unique ⟨v, e1⟩ ⟨w, e2⟩
  omega

/-- The re-insertion loop of `doubleCapacity` over a list of buckets with
pairwise different keys: if it returns, every live entry of the list is in the
table and the entries that were in the table before are kept. -/
theorem rehash_spec {V : Type} (fuel : Nat) :
    ∀ (l : List (Slot V)) (tv : Option V) (t : hashtable V) (ks : List Key) (h' : Heap V),
      WF t ks → l.Pairwise DistinctKey → rehash fuel l ⟨tv, t⟩ = .ok h' →
      h'.tombstoneValue = tv ∧ h'.table.capacity = t.capacity ∧
        ∃ ks', WF h'.table ks' ∧ (∀ x, x ∈ ks' ↔ x ∈ ks ∨ ∃ w, Slot.entry x w ∈ l) ∧
          (∀ x w, Slot.entry x w ∈ l → Holds h'.table x w) ∧
          (∀ x w, Holds t x w → (∀ w', Slot.entry x w' ∉ l) → Holds h'.table x w) := by
  intro l
  induction l with
  | nil =>
    intro tv t ks h' wf _ h
    simp only [rehash, Except.ok.injEq] at h
    subst h
    exact ⟨rfl, rfl, ks, wf, by simp, by simp, fun x w hx _ => hx⟩
  | cons s rest ih =>
    intro tv t ks h' wf hp h
    obtain ⟨hs, hp'⟩ := List.pairwise_cons.1 hp
    cases s with
    | nil =>
      simp only [rehash, Slot.IsEmpty, if_true] at h
      obtain ⟨h1, h2, ks', wf', hk, hin, hold⟩ := ih tv t ks h' wf hp' h
      refine ⟨h1, h2, ks', wf', ?_, ?_, ?_⟩
      · intro x; rw [hk x]; simp
      · intro x w hx
        simp only [List.mem_cons] at hx
        rcases hx with hx | hx
        · cases hx
        · exact hin x w hx
      · intro x w hx hno
        exact hold x w hx (fun w' hw' => hno w' (List.mem_cons_of_mem _ hw'))
    | tombstone =>
      simp only [rehash, Slot.IsEmpty, if_true] at h
      obtain ⟨h1, h2, ks', wf', hk, hin, hold⟩ := ih tv t ks h' wf hp' h
      refine ⟨h1, h2, ks', wf', ?_, ?_, ?_⟩
      · intro x; rw [hk x]; simp
      · intro x w hx
        simp only [List.mem_cons] at hx
        rcases hx with hx | hx
        · cases hx
        · exact hin x w hx
      · intro x w hx hno
        exact hold x w hx (fun w' hw' => hno w' (List.mem_cons_of_mem _ hw'))
    | entry k v =>
      simp only [rehash, Slot.IsEmpty] at h
      cases hi : insert fuel ⟨tv, t⟩ k v with
      | error f => simp [hi] at h
      | ok h1 =>
        simp only [hi] at h
        obtain ⟨e1, e2, ks1, wf1, hk1, hv1, hold1⟩ := insert_spec fuel tv t ks wf k v h1 hi
        obtain ⟨tv1, t1⟩ := h1
        simp only at e1 e2 wf1 hv1 hold1
        subst e1
        obtain ⟨g1, g2, ks', wf', hk, hin, hold⟩ := ih tv1 t1 ks1 h' wf1 hp' h
        have hno : ∀ w', Slot.entry k w' ∉ rest := by
          intro w' hw'
          exact hs _ hw' k v w' rfl rfl
        refine ⟨g1, by rw [g2, e2], ks', wf', ?_, ?_, ?_⟩
        · intro x
          rw [hk x, hk1 x]
          constructor
          · rintro ((rfl | hx) | ⟨w, hw⟩)
            · exact Or.inr ⟨v, List.mem_cons_self _ _⟩
            · exact Or.inl hx
            · exact Or.inr ⟨w, List.mem_cons_of_mem _ hw⟩
          · rintro (hx | ⟨w, hw⟩)
            · exact Or.inl (Or.inr hx)
            · simp only [List.mem_cons] at hw
              rcases hw with hw | hw
              · cases hw
                exact Or.inl (Or.inl rfl)
              · exact Or.inr ⟨w, hw⟩
        · intro x w hx
          simp only [List.mem_cons] at hx
          rcases hx with hx | hx
          · cases hx
            exact hold k v hv1 hno
          · exact hin x w hx
        · intro x w hx hnox
          have hne : x ≠ k := by
            rintro rfl
            exact hnox v (List.mem_cons_self _ _)
          exact hold x w (hold1 x hne w hx)
            (fun w' hw' => hnox w' (List.mem_cons_of_mem _ hw'))

/-- A returning `doubleCapacity` on a table without tombstones keeps the keys
and their entries. -/
theorem doubleCapacity_spec {V : Type} (fuel : Nat) (tv : Option V) (t : hashtable V)
    (ks : List Key) (wf : WF t ks) (h' : Heap V)
    (h : doubleCapacity fuel ⟨tv, t⟩ = .ok h') :
    h'.tombstoneValue = tv ∧
      ∃ ks', WF h'.table ks' ∧ (∀ x, x ∈ ks' ↔ x ∈ ks) ∧
        (∀ x w, Holds t x w → Holds h'.table x w) := by
  unfold doubleCapacity at h
  dsimp only at h
  have hc : ¬ (2 * t.capacity + 1 < 0) := by
    have := wf.cap
    omega
  simp only [hc, if_false] at h
  obtain ⟨g1, _, ks', wf', hk, hin, _⟩ :=
    rehash_spec fuel t.buckets tv _ [] h' (WF_empty _ (by omega)) wf.pairwise_buckets h
  refine ⟨g1, ks', wf', ?_, ?_⟩
  · intro x
    rw [hk x, wf.keys x]
    simp only [List.not_mem_nil, false_or]
    constructor
    · rintro ⟨w, hw⟩
      obtain ⟨i, hi⟩ := List.mem_iff_getElem?.1 hw
      exact ⟨i, w, hi⟩
    · rintro ⟨i, w, hi⟩
      exact ⟨w, List.mem_iff_getElem?.2 ⟨i, hi⟩⟩
  · rintro x w ⟨i, hi⟩
    exact hin x w (List.mem_iff_getElem?.2 ⟨i, hi⟩)

/-- A returning `Set` on a table without tombstones: the sentinel is untouched,
the invariant holds with the key added, the key maps to the new value and the
other keys keep their entries. -/
theorem Set_spec {V : Type} (fuel : Nat) (tv : Option V) (t : hashtable V) (ks : List Key)
    (wf : WF t ks) (k : Key) (v : Option V) (h' : Heap V)
    (h : Set fuel ⟨tv, t⟩ k v = .ok h') :
    h'.tombstoneValue = tv ∧
      ∃ ks', WF h'.table ks' ∧ (∀ x, x ∈ ks' ↔ x = k ∨ x ∈ ks) ∧ Holds h'.table k v ∧
        ∀ k', k' ≠ k → ∀ w, Holds t k' w → Holds h'.table k' w := by
  unfold Set at h
  dsimp only at h
  by_cases hw : willExceedCapacity t = true
  · simp only [hw, if_true] at h
    cases hd : doubleCapacity fuel ⟨tv, t⟩ with
    | error f => simp [hd] at h
    | ok h1 =>
      simp only [hd] at h
      obtain ⟨e1, ks1, wf1, hk1, hold1⟩ := doubleCapacity_spec fuel tv t ks wf h1 hd
      obtain ⟨tv1, t1⟩ := h1
      simp only at e1 wf1 hold1
      subst e1
      obtain ⟨g1, _, ks', wf', hk, hv, hold⟩ := insert_spec fuel tv1 t1 ks1 wf1 k v h' h
      refine ⟨g1, ks', wf', ?_, hv, ?_⟩
      · intro x
        rw [hk x, hk1 x]
      · intro k' hne w hx
        exact hold k' hne w (hold1 k' w hx)
  · simp only [hw, if_false] at h
    obtain ⟨g1, _, ks', wf', hk, hv, hold⟩ := insert_spec fuel tv t ks wf k v h' h
    exact ⟨g1, ks', wf', hk, hv, hold⟩

theorem lastSet_none_of_cons {V : Type} {k0 k : Key} {v0 : Option V}
    {rest : List (Key × Option V)} (h : lastSet ((k0, v0) :: rest) k = none) :
    lastSet rest k = none ∧ k0 ≠ k := by
  unfold lastSet at h
  cases hr : lastSet rest k with
  | some w => simp [hr] at h
  | none =>
    simp only [hr] at h
    refine ⟨rfl, ?_⟩
    intro e
    simp [e] at h

/-- A returning sequence of `Set` calls from a table without tombstones. -/
theorem run_setCalls_spec {V : Type} (fuel : Nat) :
    ∀ (kvs : List (Key × Option V)) (h : Heap V) (ks : List Key) (h' : Heap V),
      WF h.table ks → run fuel (setCalls kvs) h = .ok h' →
      ∃ ks', WF h'.table ks' ∧ (∀ x, x ∈ ks' ↔ x ∈ ks ∨ x ∈ kvs.map Prod.fst) ∧
        (∀ k w, lastSet kvs k = some w → Holds h'.table k w) ∧
        (∀ k w, lastSet kvs k = none → Holds h.table k w → Holds h'.table k w) := by
  intro kvs
  induction kvs with
  | nil =>
    intro h ks h' wf hr
    simp only [setCalls, List.map_nil, run, Except.ok.injEq] at hr
    subst hr
    exact ⟨ks, wf, by simp, by simp [lastSet], fun k w _ hx => hx⟩
  | cons kv rest ih =>
    intro h ks h' wf hr
    obtain ⟨k0, v0⟩ := kv
    obtain ⟨tv, t⟩ := h
    simp only [setCalls, List.map_cons, run, step] at hr
    cases hs : Set fuel ⟨tv, t⟩ k0 v0 with
    | error f => simp [hs] at hr
    | ok h1 =>
      simp only [hs] at hr
      obtain ⟨_, ks1, wf1, hk1, hv1, hold1⟩ := Set_spec fuel tv t ks wf k0 v0 h1 hs
      obtain ⟨ks', wf', hk, hlast, hkeep⟩ := ih h1 ks1 h' wf1 hr
      refine ⟨ks', wf', ?_, ?_, ?_⟩
      · intro x
        rw [hk x, hk1 x]
        simp only [List.map_cons, List.mem_cons]
        constructor
        · rintro ((hx | hx) | hx)
          · exact Or.inr (Or.inl hx)
          · exact Or.inl hx
          · exact Or.inr (Or.inr hx)
        · rintro (hx | hx | hx)
          · exact Or.inl (Or.inr hx)
          · exact Or.inl (Or.inl hx)
          · exact Or.inr hx
      · intro k w hl
        unfold lastSet at hl
        cases hr' : lastSet rest k with
        | some w' =>
          simp only [hr', Option.some.injEq] at hl
          subst hl
          exact hlast k w' hr'
        | none =>
          simp only [hr'] at hl
          by_cases e : k0 = k
          · subst e
            simp only [if_true, Option.some.injEq] at hl
            subst hl
            exact hkeep k0 v0 hr' hv1
          · simp [e] at hl
      · intro k w hl hx
        obtain ⟨hr', hne⟩ := lastSet_none_of_cons hl
        exact hkeep k w hr' (hold1 k (fun e => hne e.symm) w hx)

theorem WF_New {V : Type} : WF (New : hashtable V) [] := WF_empty 0 (le_refl 0)

/-- Every key of a sequence of `Set` calls has a last value. -/
theorem lastSet_of_mem {V : Type} (k : Key) :
    ∀ kvs : List (Key × Option V), k ∈ kvs.map Prod.fst → ∃ v, lastSet kvs k = some v := by
  intro kvs
  induction kvs with
  | nil => intro h; simp at h
  | cons kv rest ih =>
    intro h
    obtain ⟨k0, v0⟩ := kv
    unfold lastSet
    cases hr : lastSet rest k with
    | some w => exact ⟨w, rfl⟩
    | none =>
      simp only [List.map_cons, List.mem_cons] at h
      rcases h with h | h
      · subst h
        exact ⟨v0, by simp⟩
      · obtain ⟨v, hv⟩ := ih h
        rw [hr] at hv
        cases hv

/-- C2: after any sequence of `Set` calls on `New()` in which every call has
returned, however often the table grew: `Size()` is the number of distinct keys
set, and for every key that was set `Get` returns the value of the last `Set` on
it and `Has` is true (both return, with any fuel above the size). -/
theorem Set_sequence_correct {V : Type} (fuel : Nat) (kvs : List (Key × Option V))
    (h : Heap V) (hrun : run fuel (setCalls kvs) initial = .ok h) :
    Size h.table = (distinctKeys kvs : Int) ∧
      ∀ k, k ∈ kvs.map Prod.fst → ∃ v, lastSet kvs k = some v ∧
        ∀ fuel' : Nat, Size h.table < (fuel' : Int) →
          Get fuel' h k = .ok v ∧ Has fuel' h k = .ok true := by
  obtain ⟨ks, wf, hk, hlast, _⟩ := run_setCalls_spec fuel kvs initial [] h WF_New hrun
  constructor
  · unfold Size distinctKeys
    rw [wf.size]
    have hperm : ks.Perm ((kvs.map Prod.fst).dedup) := by
      rw [List.perm_ext_iff_of_nodup wf.nodup (List.nodup_dedup _)]
      intro x
      rw [hk x, List.mem_dedup]
      simp
    rw [hperm.length_eq]
  · intro k hmem
    obtain ⟨v, hl⟩ := lastSet_of_mem k kvs hmem
    refine ⟨v, hl, ?_⟩
    intro fuel' hfuel
    have hf := wf.find_of_holds (hlast k v hl) fuel' hfuel
    unfold Get Has
    rw [hf]
    exact ⟨rfl, rfl⟩

/-- C2, at five `Set` calls on three keys that grow the table from capacity 0
to 1, 3 and 7. -/
theorem Set_sequence_correct_witness :
    run 8 (setCalls [([97], some 1), ([98], some 2), ([97], some 3), ([99], none),
        ([98], some 5)]) (initial : Heap Nat)
      = .ok ⟨none, ⟨3, 7, [.entry [98] (some 5), .nil, .entry [99] none, .nil, .nil, .nil,
              .entry [97] (some 3)]⟩⟩ ∧
    (Size (⟨3, 7, [.entry [98] (some 5), .nil, .entry [99] none, .nil, .nil, .nil,
              .entry [97] (some 3)]⟩ : hashtable Nat)
        = (distinctKeys [(([97] : Key), some 1), ([98], some 2), ([97], some 3), ([99], none),
              ([98], some 5)] : Int) ∧
      ∀ k, k ∈ List.map Prod.fst [(([97] : Key), (some 1 : Option Nat)), ([98], some 2),
          ([97], some 3), ([99], none), ([98], some 5)] →
        ∃ v, lastSet [([97], some 1), ([98], some 2), ([97], some 3), ([99], none),
          ([98], some 5)] k = some v ∧
        ∀ fuel' : Nat,
          Size (⟨3, 7, [.entry [98] (some 5), .nil, .entry [99] none, .nil, .nil, .nil,
              .entry [97] (some 3)]⟩ : hashtable Nat) < (fuel' : Int) →
          Get fuel' (⟨none, ⟨3, 7, [.entry [98] (some 5), .nil, .entry [99] none, .nil, .nil,
              .nil, .entry [97] (some 3)]⟩⟩ : Heap Nat) k = .ok v ∧
          Has fuel' (⟨none, ⟨3, 7, [.entry [98] (some 5), .nil, .entry [99] none, .nil, .nil,
              .nil, .entry [97] (some 3)]⟩⟩ : Heap Nat) k = .ok true) :=
  ⟨by decide,
    Set_sequence_correct 8
      [([97], some 1), ([98], some 2), ([97], some 3), ([99], none), ([98], some 5)]
      ⟨none, ⟨3, 7, [.entry [98] (some 5), .nil, .entry [99] none, .nil, .nil, .nil,
              .entry [97] (some 3)]⟩⟩
      (by decide)⟩

/-! ## `Has` and `Get` -/

/-- C11, as stated, fails: after `Set("a", nil)` on `New()` the key is found,
`Has("a")` is true and `Get("a")` returns the stored nil. -/
theorem Has_true_Get_nil :
    run 2 [.set [97] none] (initial : Heap Nat)
      = .ok ⟨none, ⟨1, 1, [.entry [97] none]⟩⟩ ∧
    (∀ fuel : Nat,
      Has (fuel + 1) (⟨none, ⟨1, 1, [.entry [97] none]⟩⟩ : Heap Nat) [97] = .ok true) ∧
    (∀ fuel : Nat,
      Get (fuel + 1) (⟨none, ⟨1, 1, [.entry [97] none]⟩⟩ : Heap Nat) [97] = .ok none) := by
  refine ⟨by decide, ?_, ?_⟩
  · intro fuel; rfl
  · intro fuel; rfl

/-! ## The hash function -/

/-- C12: for the one byte string `"a"` the 32 bit FNV-1a value is
`3826002220 = 0xe40c292c`, while `hash` multiplies in 64 bit `int` without
reducing and returns `36342608335481132`; for `"keythatdoesnotexist"` the
result is negative. -/
theorem hash_not_fnv1a32 :
    fnv1a32 [97] = 3826002220 ∧ hash [97] = 36342608335481132 ∧
      hash [97] ≠ (fnv1a32 [97] : Int) ∧ hash [97] % 2 ^ 32 = (fnv1a32 [97] : Int) := by
  decide

/-! ## Two tables and the shared sentinel -/

/-- C14: tables `A` and `B` are both built by `Set("a",1); Set("b",2);
Set("c",3); Remove("b")`, which leaves the sentinel in bucket 0 of each.
`B.Get("tombstone")` returns nil; `A.Set("tombstone", 9)` writes the value 9
into the shared sentinel, and the same `B.Get("tombstone")` then returns 9. -/
theorem Set_on_A_changes_Get_on_B :
    run 8 [.set [97] (some 1), .set [98] (some 2), .set [99] (some 3), .remove [98]]
        (initial : Heap Nat)
      = .ok ⟨none, ⟨2, 7, [.tombstone, .nil, .entry [99] (some 3), .nil, .nil, .nil,
              .entry [97] (some 1)]⟩⟩ ∧
    World.GetB 8 (⟨none,
        ⟨2, 7, [.tombstone, .nil, .entry [99] (some 3), .nil, .nil, .nil, .entry [97] (some 1)]⟩,
        ⟨2, 7, [.tombstone, .nil, .entry [99] (some 3), .nil, .nil, .nil,
          .entry [97] (some 1)]⟩⟩ : World Nat) tombstoneKey = .ok none ∧
    World.SetA 8 (⟨none,
        ⟨2, 7, [.tombstone, .nil, .entry [99] (some 3), .nil, .nil, .nil, .entry [97] (some 1)]⟩,
        ⟨2, 7, [.tombstone, .nil, .entry [99] (some 3), .nil, .nil, .nil,
          .entry [97] (some 1)]⟩⟩ : World Nat) tombstoneKey (some 9)
      = .ok ⟨some 9,
        ⟨2, 7, [.tombstone, .nil, .entry [99] (some 3), .nil, .nil, .nil, .entry [97] (some 1)]⟩,
        ⟨2, 7, [.tombstone, .nil, .entry [99] (some 3), .nil, .nil, .nil,
          .entry [97] (some 1)]⟩⟩ ∧
    World.GetB 8 (⟨some 9,
        ⟨2, 7, [.tombstone, .nil, .entry [99] (some 3), .nil, .nil, .nil, .entry [97] (some 1)]⟩,
        ⟨2, 7, [.tombstone, .nil, .entry [99] (some 3), .nil, .nil, .nil,
          .entry [97] (some 1)]⟩⟩ : World Nat) tombstoneKey = .ok (some 9) := by
  decide

/-! ## The size and the live buckets -/

/-- C17: after `Set("a",1); Set("b",2); Set("c",3); Remove("b");
Remove("tombstone")` the second `Remove` has matched the sentinel left by the
first and decremented the size again: `Size()` is 1 while two buckets hold a
live entry. -/
theorem Size_below_liveCount :
    run 8 [.set [97] (some 1), .set [98] (some 2), .set [99] (some 3), .remove [98],
          .remove tombstoneKey] (initial : Heap Nat)
      = .ok ⟨none, ⟨1, 7, [.tombstone, .nil, .entry [99] (some 3), .nil, .nil, .nil,
              .entry [97] (some 1)]⟩⟩ ∧
    Size (⟨1, 7, [.tombstone, .nil, .entry [99] (some 3), .nil, .nil, .nil,
              .entry [97] (some 1)]⟩ : hashtable Nat) = 1 ∧
    liveCount ([.tombstone, .nil, .entry [99] (some 3), .nil, .nil, .nil,
              .entry [97] (some 1)] : List (Slot Nat)) = 2 := by
  decide

/-! ## What every call leaves alone: capacity, length, and the size up to one -/

theorem insertLoop_frame {V : Type} (k : Key) (v : Option V) :
    ∀ (fuel : Nat) (h : Heap V) (index : Int) (h' : Heap V),
      insertLoop k v fuel h index = .ok h' →
      h'.table.capacity = h.table.capacity ∧
        h'.table.buckets.length = h.table.buckets.length ∧
        h.table.size ≤ h'.table.size ∧ h'.table.size ≤ h.table.size + 1 := by
  intro fuel
  induction fuel with
  | zero =>
    intro h index h' hr
    simp [insertLoop] at hr
  | succ n ih =>
    intro h index h' hr
    unfold insertLoop at hr
    cases hb : bucketAt h.table.buckets index with
    | none => simp [hb] at hr
    | some e =>
      cases e with
      | nil =>
        simp only [hb, Except.ok.injEq] at hr
        subst hr
        simp
      | tombstone =>
        simp only [hb] at hr
        by_cases hk : tombstoneKey = k
        · simp only [hk, if_true, Except.ok.injEq] at hr
          subst hr
          simp
        · simp only [hk, if_false] at hr
          exact ih _ _ _ hr
      | entry k1 v1 =>
        simp only [hb] at hr
        by_cases hk : k1 = k
        · simp only [hk, if_true, Except.ok.injEq] at hr
          subst hr
          simp
        · simp only [hk, if_false] at hr
          exact ih _ _ _ hr

theorem insert_frame {V : Type} (fuel : Nat) (h : Heap V) (k : Key) (v : Option V)
    (h' : Heap V) (hr : insert fuel h k v = .ok h') :
    h'.table.capacity = h.table.capacity ∧
      h'.table.buckets.length = h.table.buckets.length ∧
      h.table.size ≤ h'.table.size ∧ h'.table.size ≤ h.table.size + 1 := by
  unfold insert at hr
  cases hs : startIndex h.table k with
  | none => simp [hs] at hr
  | some index =>
    simp only [hs] at hr
    exact insertLoop_frame k v fuel h index h' hr

theorem rehash_frame {V : Type} (fuel : Nat) :
    ∀ (l : List (Slot V)) (h h' : Heap V), rehash fuel l h = .ok h' →
      h'.table.capacity = h.table.capacity ∧
        h'.table.buckets.length = h.table.buckets.length ∧
        h.table.size ≤ h'.table.size ∧ h'.table.size ≤ h.table.size + (l.length : Int) := by
  intro l
  induction l with
  | nil =>
    intro h h' hr
    simp only [rehash, Except.ok.injEq] at hr
    subst hr
    simp
  | cons e rest ih =>
    intro h h' hr
    cases e with
    | nil =>
      simp only [rehash, Slot.IsEmpty, if_true] at hr
      obtain ⟨h1, h2, h3, h4⟩ := ih h h' hr
      refine ⟨h1, h2, h3, ?_⟩
      simp only [List.length_cons]
      push_cast
      omega
    | tombstone =>
      simp only [rehash, Slot.IsEmpty, if_true] at hr
      obtain ⟨h1, h2, h3, h4⟩ := ih h h' hr
      refine ⟨h1, h2, h3, ?_⟩
      simp only [List.length_cons]
      push_cast
      omega
    | entry k v =>
      simp only [rehash, Slot.IsEmpty] at hr
      cases hi : insert fuel h k v with
      | error f => simp [hi] at hr
      | ok hmid =>
        simp only [hi] at hr
        obtain ⟨a1, a2, a3, a4⟩ := insert_frame fuel h k v hmid hi
        obtain ⟨b1, b2, b3, b4⟩ := ih hmid h' hr
        refine ⟨by rw [b1, a1], by rw [b2, a2], by omega, ?_⟩
        simp only [List.length_cons]
        push_cast
        omega

theorem doubleCapacity_frame {V : Type} (fuel : Nat) (h h' : Heap V)
    (hr : doubleCapacity fuel h = .ok h') :
    h'.table.capacity = 2 * h.table.capacity + 1 ∧
      (h'.table.buckets.length : Int) = 2 * h.table.capacity + 1 ∧
      0 ≤ h'.table.size ∧ h'.table.size ≤ (h.table.buckets.length : Int) := by
  unfold doubleCapacity at hr
  dsimp only at hr
  by_cases hc : 2 * h.table.capacity + 1 < 0
  · simp [hc] at hr
  · simp only [hc, if_false] at hr
    obtain ⟨h1, h2, h3, h4⟩ := rehash_frame fuel _ _ _ hr
    simp only [List.length_replicate] at h1 h2 h3 h4
    refine ⟨h1, ?_, h3, by omega⟩
    rw [h2]
    exact Int.toNat_of_nonneg (by omega)

theorem removeLoop_frame {V : Type} (t : hashtable V) (k : Key) :
    ∀ (fuel : Nat) (index visited : Int) (t' : hashtable V),
      removeLoop t k fuel index visited = .ok t' →
      t'.capacity = t.capacity ∧ t'.buckets.length = t.buckets.length ∧
        t'.size ≤ t.size ∧ t.size ≤ t'.size + 1 := by
  intro fuel
  induction fuel with
  | zero =>
    intro index visited t' hr
    simp [removeLoop] at hr
  | succ n ih =>
    intro index visited t' hr
    unfold removeLoop at hr
    by_cases hv : visited = Size t
    · simp only [hv, if_true, Except.ok.injEq] at hr
      subst hr
      simp
    · simp only [hv, if_false] at hr
      cases hb : bucketAt t.buckets index with
      | none => simp [hb] at hr
      | some e =>
        cases e with
        | nil =>
          simp only [hb, Except.ok.injEq] at hr
          subst hr
          simp
        | tombstone =>
          simp only [hb] at hr
          by_cases hk : (Slot.tombstone : Slot V).key? = some k
          · simp only [hk, if_true, Except.ok.injEq] at hr
            subst hr
            simp
          · simp only [hk, if_false] at hr
            exact ih _ _ _ hr
        | entry k1 v1 =>
          simp only [hb] at hr
          by_cases hk : (Slot.entry k1 v1 : Slot V).key? = some k
          · simp only [hk, if_true, Except.ok.injEq] at hr
            subst hr
            simp
          · simp only [hk, if_false] at hr
            exact ih _ _ _ hr

/-! ## The load invariant -/

theorem maxLoad_eq (c : Int) (hc : 0 ≤ c) : maxLoad c = 3 * c / 4 := by
  unfold maxLoad
  exact Int.tdiv_eq_ediv (by omega) (by decide)

theorem LoadInv_New {V : Type} : LoadInv (New : hashtable V) := by
  unfold LoadInv New
  simp

/-- A returning `Set` keeps the load invariant, and the capacity stays or
becomes `2 * capacity + 1`. -/
theorem Set_LoadInv {V : Type} (fuel : Nat) (h : Heap V) (k : Key) (v : Option V)
    (h' : Heap V) (inv : LoadInv h.table) (hr : Set fuel h k v = .ok h') :
    LoadInv h'.table ∧
      (h'.table.capacity = h.table.capacity ∨
        h'.table.capacity = 2 * h.table.capacity + 1) := by
  obtain ⟨icap, izero, iload⟩ := inv
  unfold Set at hr
  by_cases hw : willExceedCapacity h.table = true
  · simp only [hw, if_true] at hr
    cases hd : doubleCapacity fuel h with
    | error f => simp [hd] at hr
    | ok h1 =>
      simp only [hd] at hr
      obtain ⟨a1, a2, a3, a4⟩ := doubleCapacity_frame fuel h h1 hd
      obtain ⟨b1, b2, b3, b4⟩ := insert_frame fuel h1 k v h' hr
      refine ⟨⟨?_, ?_, ?_⟩, Or.inr (by rw [b1, a1])⟩
      · rw [b1, b2, a1, a2]
      · intro h0
        rw [b1, a1] at h0
        omega
      · rw [b1, a1]
        by_cases hc0 : h.table.capacity = 0
        · left
          omega
        · right
          rw [maxLoad_eq _ (by omega)]
          omega
  · simp only [hw, if_false] at hr
    obtain ⟨b1, b2, b3, b4⟩ := insert_frame fuel h k v h' hr
    have hle : h.table.size + 1 ≤ maxLoad h.table.capacity := by
      unfold willExceedCapacity at hw
      simp only [decide_eq_true_eq] at hw
      omega
    have hne : h.table.capacity ≠ 0 := by
      intro h0
      have hs := izero h0
      rw [h0, hs] at hle
      revert hle
      decide
    refine ⟨⟨by rw [b1, b2]; exact icap, ?_, ?_⟩, Or.inl b1⟩
    · intro h0
      rw [b1] at h0
      exact absurd h0 hne
    · right
      rw [b1]
      omega

/-- A returning `Remove` keeps the load invariant and the capacity. -/
theorem Remove_LoadInv {V : Type} (fuel : Nat) (h : Heap V) (k : Key) (h' : Heap V)
    (inv : LoadInv h.table) (hr : Remove fuel h k = .ok h') :
    LoadInv h'.table ∧ h'.table.capacity = h.table.capacity := by
  obtain ⟨icap, izero, iload⟩ := inv
  unfold Remove at hr
  by_cases he : IsEmpty h.table = true
  · simp only [he, if_true, Except.ok.injEq] at hr
    subst hr
    exact ⟨⟨icap, izero, iload⟩, rfl⟩
  · simp only [he] at hr
    cases hs : startIndex h.table k with
    | none => simp [hs] at hr
    | some index =>
      simp only [hs] at hr
      cases hl : removeLoop h.table k fuel index 0 with
      | error f => simp [hl] at hr
      | ok t' =>
        simp only [hl] at hr
        simp only [Bool.false_eq_true, if_false, Except.ok.injEq] at hr
        subst hr
        obtain ⟨c1, c2, c3, c4⟩ := removeLoop_frame h.table k fuel index 0 t' hl
        have hne : h.table.capacity ≠ 0 := by
          intro h0
          unfold startIndex at hs
          simp [h0] at hs
        refine ⟨⟨by simp only [c1, c2]; exact icap, ?_, ?_⟩, c1⟩
        · intro h0
          simp only [c1] at h0
          exact absurd h0 hne
        · simp only [c1]
          rcases iload with h1 | h1
          · exact Or.inl h1
          · exact Or.inr (by omega)

theorem run_LoadInv {V : Type} (fuel : Nat) :
    ∀ (ops : List (Op V)) (h h' : Heap V), LoadInv h.table → run fuel ops h = .ok h' →
      LoadInv h'.table := by
  intro ops
  induction ops with
  | nil =>
    intro h h' inv hr
    simp only [run, Except.ok.injEq] at hr
    subst hr
    exact inv
  | cons op rest ih =>
    intro h h' inv hr
    simp only [run] at hr
    cases hs : step fuel h op with
    | error f => simp [hs] at hr
    | ok h1 =>
      simp only [hs] at hr
      cases op with
      | set k v => exact ih h1 h' (Set_LoadInv fuel h k v h1 inv hs).1 hr
      | remove k => exact ih h1 h' (Remove_LoadInv fuel h k h1 inv hs).1 hr

/-- C19: in every table built from `New()` by returning `Set` and `Remove`
calls, either the capacity is at most 1 or the size is at most
`floor(3 * capacity / 4)`, which is the value of
`int(float64(capacity) * 0.75)`; a state above that load has capacity 1; and a
further returning `Set` leaves the capacity or grows it once, to
`2 * capacity + 1`. -/
theorem load_factor_invariant {V : Type} (fuel : Nat) (ops : List (Op V)) (h : Heap V)
    (hrun : run fuel ops initial = .ok h) :
    (h.table.capacity ≤ 1 ∨ Size h.table ≤ 3 * h.table.capacity / 4) ∧
      maxLoad h.table.capacity = 3 * h.table.capacity / 4 ∧
      (3 * h.table.capacity / 4 < Size h.table → h.table.capacity = 1) ∧
      ∀ (fuel' : Nat) (k : Key) (v : Option V) (h' : Heap V), Set fuel' h k v = .ok h' →
        h'.table.capacity = h.table.capacity ∨
          h'.table.capacity = 2 * h.table.capacity + 1 := by
  have inv : LoadInv h.table := run_LoadInv fuel ops initial h LoadInv_New hrun
  have hcap : 0 ≤ h.table.capacity := by
    rw [inv.1]
    omega
  have hm := maxLoad_eq h.table.capacity hcap
  unfold Size
  refine ⟨?_, hm, ?_, ?_⟩
  · rcases inv.2.2 with h1 | h1
    · exact Or.inl h1
    · exact Or.inr (by rw [← hm]; exact h1)
  · intro habove
    rcases inv.2.2 with h1 | h1
    · by_contra hne
      have h0 : h.table.capacity = 0 := by omega
      have hs := inv.2.1 h0
      rw [h0, hs] at habove
      revert habove
      decide
    · rw [hm] at h1
      omega
  · intro fuel' k v h' hs
    exact (Set_LoadInv fuel' h k v h' inv hs).2

/-- C19, at the table after `Set("a",1); Set("b",2); Remove("a"); Set("c",3)`:
capacity 3, size 2. -/
theorem load_factor_invariant_witness :
    run 4 [.set [97] (some 1), .set [98] (some 2), .remove [97], .set [99] (some 3)]
        (initial : Heap Nat)
      = .ok ⟨none, ⟨2, 3, [.entry [98] (some 2), .entry [99] (some 3), .tombstone]⟩⟩ ∧
    ((3 : Int) ≤ 1 ∨ Size (⟨2, 3, [.entry [98] (some 2), .entry [99] (some 3),
        .tombstone]⟩ : hashtable Nat) ≤ 3 * 3 / 4) :=
  ⟨by decide,
    (load_factor_invariant 4
      [.set [97] (some 1), .set [98] (some 2), .remove [97], .set [99] (some 3)]
      (⟨none, ⟨2, 3, [.entry [98] (some 2), .entry [99] (some 3), .tombstone]⟩⟩ : Heap Nat)
      (by decide)).1⟩

/-! ## The probe chain invariant with tombstones -/

theorem PChain_le {V : Type} {t : hashtable V} {k : Key} {hm d d' : Nat}
    (hc : PChain t k hm d) (hk : KeyAt t ((hm + d') % t.buckets.length) k) : d ≤ d' := by
  by_contra hlt
  have hlt : d' < d := by omega
  rcases hc.2 d' hlt with htomb | ⟨k', hne, hk'⟩
  · obtain ⟨w, hw⟩ := hk
    rw [hw] at htomb
    cases htomb
  · exact hne (KeyAt_unique_key hk' hk)

theorem PChain_start_eq {V : Type} {t : hashtable V} {k : Key} {hm d hm' d' : Nat}
    (hc : PChain t k hm d) (hc' : PChain t k hm' d') : hm = hm' := by
  have := hc.1.symm.trans hc'.1
  exact_mod_cast this

/-- Under the probe chain invariant a key has one live bucket. -/
theorem ProbeInv.probe_slot_unique {V : Type} {t : hashtable V} (inv : ProbeInv t)
    {i j : Nat} {k : Key} (hi : KeyAt t i k) (hj : KeyAt t j k) : i = j := by
  obtain ⟨hm, d, hc, rfl⟩ := inv.chain i k hi
  obtain ⟨hm', d', hc', rfl⟩ := inv.chain j k hj
  have e : hm = hm' := PChain_start_eq hc hc'
  subst e
  have h1 : d ≤ d' := PChain_le hc hj
  have h2 : d' ≤ d := PChain_le hc' hi
  have : d = d' := by omega
  rw [this]

/-- A probe chain survives a change of the bucket array that keeps the
capacity and the length, keeps every sentinel, and turns a live entry into
nothing but itself (same key) or the sentinel. -/
theorem PChain_mono {V : Type} {t t' : hashtable V} (hcap : t'.capacity = t.capacity)
    (hlen : t'.buckets.length = t.buckets.length)
    (htomb : ∀ i : Nat, t.buckets[i]? = some Slot.tombstone →
      t'.buckets[i]? = some Slot.tombstone)
    (hlive : ∀ i x, KeyAt t i x → KeyAt t' i x ∨ t'.buckets[i]? = some Slot.tombstone)
    {k : Key} {hm d : Nat} (hc : PChain t k hm d) : PChain t' k hm d := by
  refine ⟨by rw [hcap]; exact hc.1, ?_⟩
  intro j hj
  rw [hlen]
  rcases hc.2 j hj with h | ⟨k', hne, hk'⟩
  · exact Or.inl (htomb _ h)
  · rcases hlive _ _ hk' with h | h
    · exact Or.inr ⟨k', hne, h⟩
    · exact Or.inl h

theorem PChain_succ_tombstone {V : Type} {t : hashtable V} {k : Key} {hm d : Nat}
    (hc : PChain t k hm d)
    (hb : t.buckets[(hm + d) % t.buckets.length]? = some Slot.tombstone) :
    PChain t k hm (d + 1) := by
  refine ⟨hc.1, ?_⟩
  intro j hj
  rcases Nat.lt_or_ge j d with h1 | h1
  · exact hc.2 j h1
  · have : j = d := by omega
    subst this
    exact Or.inl hb

theorem PChain_succ_entry {V : Type} {t : hashtable V} {k k1 : Key} {v1 : Option V}
    {hm d : Nat} (hc : PChain t k hm d)
    (hb : t.buckets[(hm + d) % t.buckets.length]? = some (Slot.entry k1 v1)) (hk : k1 ≠ k) :
    PChain t k hm (d + 1) := by
  refine ⟨hc.1, ?_⟩
  intro j hj
  rcases Nat.lt_or_ge j d with h1 | h1
  · exact hc.2 j h1
  · have : j = d := by omega
    subst this
    exact Or.inr ⟨k1, hk, v1, hb⟩

/-- Writing the entry `(k, v)` into the bucket at the end of the probe chain of
`k`, over nil or over an entry of `k`, keeps the probe chain invariant. -/
theorem ProbeInv.probe_set_entry {V : Type} {t t' : hashtable V} (inv : ProbeInv t)
    {idx : Nat} {k : Key} {v : Option V} {hm d : Nat}
    (hb : t'.buckets = t.buckets.set idx (Slot.entry k v)) (hidx : idx < t.buckets.length)
    (hcap : t'.capacity = t.capacity) (hc : PChain t k hm d)
    (hd : idx = (hm + d) % t.buckets.length)
    (hold : t.buckets[idx]? = some Slot.nil ∨ KeyAt t idx k) : ProbeInv t' := by
  have hlen : t'.buckets.length = t.buckets.length := by rw [hb, List.length_set]
  have hne_tomb : t.buckets[idx]? ≠ some Slot.tombstone := by
    rcases hold with h | ⟨w, h⟩ <;> rw [h] <;> simp
  have htomb : ∀ i : Nat, t.buckets[i]? = some Slot.tombstone →
      t'.buckets[i]? = some Slot.tombstone := by
    intro i hi
    have hne : idx ≠ i := by
      rintro rfl
      exact hne_tomb hi
    rw [hb, List.getElem?_set_ne hne]
    exact hi
  have hlive : ∀ i x, KeyAt t i x → KeyAt t' i x ∨ t'.buckets[i]? = some Slot.tombstone := by
    intro i x hi
    left
    apply (KeyAt_set hb hidx i x).2
    by_cases e : i = idx
    · left
      subst e
      refine ⟨rfl, ?_⟩
      rcases hold with h | h
      · obtain ⟨w, hw⟩ := hi
        rw [hw] at h
        cases h
      · exact KeyAt_unique_key hi h
    · exact Or.inr ⟨e, hi⟩
  refine ⟨by rw [hcap, hlen]; exact inv.cap, ?_⟩
  intro i x hi
  rcases (KeyAt_set hb hidx i x).1 hi with ⟨rfl, rfl⟩ | ⟨_, h⟩
  · exact ⟨hm, d, PChain_mono hcap hlen htomb hlive hc, by rw [hlen]; exact hd⟩
  · obtain ⟨hm', d', hc', e⟩ := inv.chain i x h
    exact ⟨hm', d', PChain_mono hcap hlen htomb hlive hc', by rw [hlen]; exact e⟩

/-- The probe loop of `insert`, started anywhere on the probe chain of `k`: if
it returns, the probe chain invariant still holds. -/
theorem insertLoop_probe {V : Type} (k : Key) (v : Option V) (hm : Nat) :
    ∀ (fuel d : Nat) (tv : Option V) (t : hashtable V) (h' : Heap V),
      ProbeInv t → PChain t k hm d →
      insertLoop k v fuel ⟨tv, t⟩ (((hm + d) % t.buckets.length : Nat) : Int) = .ok h' →
      ProbeInv h'.table := by
  intro fuel
  induction fuel with
  | zero =>
    intro d tv t h' _ _ h
    simp [insertLoop] at h
  | succ n ih =>
    intro d tv t h' inv hc h
    unfold insertLoop at h
    dsimp only at h
    rw [bucketAt_natCast] at h
    cases hb : t.buckets[(hm + d) % t.buckets.length]? with
    | none => rw [hb] at h; simp at h
    | some s =>
      have hidx : (hm + d) % t.buckets.length < t.buckets.length :=
        (List.getElem?_eq_some.1 hb).1
      cases s with
      | nil =>
        rw [hb] at h
        simp only [Int.toNat_ofNat, Except.ok.injEq] at h
        subst h
        exact inv.probe_set_entry rfl hidx rfl hc rfl (Or.inl hb)
      | tombstone =>
        rw [hb] at h
        by_cases hk : tombstoneKey = k
        · simp only [hk, if_true, Except.ok.injEq] at h
          subst h
          exact inv
        · simp only [hk, if_false] at h
          rw [inv.cap, next_index] at h
          exact ih (d + 1) tv t h' inv (PChain_succ_tombstone hc hb) h
      | entry k1 v1 =>
        rw [hb] at h
        by_cases hk : k1 = k
        · subst hk
          simp only [Int.toNat_ofNat, if_true, Except.ok.injEq] at h
          subst h
          exact inv.probe_set_entry rfl hidx rfl hc rfl (Or.inr ⟨v1, hb⟩)
        · simp only [hk, if_false] at h
          rw [inv.cap, next_index] at h
          exact ih (d + 1) tv t h' inv (PChain_succ_entry hc hb hk) h

/-- A returning `insert` keeps the probe chain invariant. -/
theorem insert_probe {V : Type} (fuel : Nat) (h : Heap V) (k : Key) (v : Option V)
    (h' : Heap V) (inv : ProbeInv h.table) (hr : insert fuel h k v = .ok h') :
    ProbeInv h'.table := by
  obtain ⟨tv, t⟩ := h
  unfold insert startIndex at hr
  dsimp only at hr inv
  by_cases hcap : t.capacity = 0
  · simp [hcap] at hr
  · simp only [hcap, if_false] at hr
    by_cases hneg : Int.tmod (hash k) t.capacity < 0
    · exact absurd hr (insertLoop_neg k v fuel _ _ hneg h')
    · have hpos : 0 < t.capacity := by
        have := inv.cap
        omega
      have hlt := Int.tmod_lt_of_pos (hash k) hpos
      obtain ⟨hm, hhm⟩ : ∃ hm : Nat, Int.tmod (hash k) t.capacity = (hm : Int) :=
        ⟨(Int.tmod (hash k) t.capacity).toNat, (Int.toNat_of_nonneg (by omega)).symm⟩
      have hlen : hm < t.buckets.length := by
        have := inv.cap
        omega
      have hc : PChain t k hm 0 := ⟨hhm, fun j hj => absurd hj (Nat.not_lt_zero j)⟩
      have := insertLoop_probe k v hm fuel 0 tv t h' inv hc
      rw [Nat.add_zero, Nat.mod_eq_of_lt hlen, ← hhm] at this
      exact this hr

theorem rehash_probe {V : Type} (fuel : Nat) :
    ∀ (l : List (Slot V)) (h h' : Heap V), ProbeInv h.table → rehash fuel l h = .ok h' →
      ProbeInv h'.table := by
  intro l
  induction l with
  | nil =>
    intro h h' inv hr
    simp only [rehash, Except.ok.injEq] at hr
    subst hr
    exact inv
  | cons e rest ih =>
    intro h h' inv hr
    cases e with
    | nil =>
      simp only [rehash, Slot.IsEmpty, if_true] at hr
      exact ih h h' inv hr
    | tombstone =>
      simp only [rehash, Slot.IsEmpty, if_true] at hr
      exact ih h h' inv hr
    | entry k v =>
      simp only [rehash, Slot.IsEmpty] at hr
      cases hi : insert fuel h k v with
      | error f => simp [hi] at hr
      | ok hmid =>
        simp only [hi] at hr
        exact ih hmid h' (insert_probe fuel h k v hmid inv hi) hr

theorem ProbeInv_empty {V : Type} (size c : Int) (hc : 0 ≤ c) :
    ProbeInv (⟨size, c, List.replicate c.toNat Slot.nil⟩ : hashtable V) := by
  refine ⟨?_, ?_⟩
  · simp only [List.length_replicate]
    exact (Int.toNat_of_nonneg hc).symm
  · rintro i k ⟨w, hw⟩
    simp only [List.getElem?_replicate] at hw
    split at hw <;> simp at hw

/-- A returning `doubleCapacity` establishes the probe chain invariant, from any
table. -/
theorem doubleCapacity_probe {V : Type} (fuel : Nat) (h h' : Heap V)
    (hr : doubleCapacity fuel h = .ok h') : ProbeInv h'.table := by
  unfold doubleCapacity at hr
  dsimp only at hr
  by_cases hc : 2 * h.table.capacity + 1 < 0
  · simp [hc] at hr
  · simp only [hc, if_false] at hr
    exact rehash_probe fuel _ _ h' (ProbeInv_empty 0 _ (by omega)) hr

theorem Set_probe {V : Type} (fuel : Nat) (h : Heap V) (k : Key) (v : Option V)
    (h' : Heap V) (inv : ProbeInv h.table) (hr : Set fuel h k v = .ok h') :
    ProbeInv h'.table := by
  unfold Set at hr
  by_cases hw : willExceedCapacity h.table = true
  · simp only [hw, if_true] at hr
    cases hd : doubleCapacity fuel h with
    | error f => simp [hd] at hr
    | ok h1 =>
      simp only [hd] at hr
      exact insert_probe fuel h1 k v h' (doubleCapacity_probe fuel h h1 hd) hr
  · simp only [hw, if_false] at hr
    exact insert_probe fuel h k v h' inv hr

/-- Replacing any bucket by the sentinel keeps the probe chain invariant. -/
theorem ProbeInv.set_tombstone {V : Type} {t t' : hashtable V} (inv : ProbeInv t)
    {idx : Nat} (hb : t'.buckets = t.buckets.set idx Slot.tombstone)
    (hcap : t'.capacity = t.capacity) : ProbeInv t' := by
  have hlen : t'.buckets.length = t.buckets.length := by rw [hb, List.length_set]
  have hget : ∀ i : Nat, t'.buckets[i]? =
      if idx = i then (if idx < t.buckets.length then some Slot.tombstone else none)
      else t.buckets[i]? := by
    intro i
    rw [hb, List.getElem?_set]
  have htomb : ∀ i : Nat, t.buckets[i]? = some Slot.tombstone →
      t'.buckets[i]? = some Slot.tombstone := by
    intro i hi
    rw [hget i]
    by_cases e : idx = i
    · subst e
      have : idx < t.buckets.length := (List.getElem?_eq_some.1 hi).1
      simp [this]
    · simp [e, hi]
  have hlive : ∀ i x, KeyAt t i x → KeyAt t' i x ∨ t'.buckets[i]? = some Slot.tombstone := by
    intro i x hi
    by_cases e : idx = i
    · right
      subst e
      rw [hget idx]
      simp [KeyAt_lt hi]
    · left
      obtain ⟨w, hw⟩ := hi
      exact ⟨w, by rw [hget i]; simp [e, hw]⟩
  refine ⟨by rw [hcap, hlen]; exact inv.cap, ?_⟩
  rintro i x ⟨w, hw⟩
  rw [hget i] at hw
  by_cases e : idx = i
  · simp only [e, if_true] at hw
    split at hw <;> simp at hw
  · simp only [e, if_false] at hw
    obtain ⟨hm', d', hc', e'⟩ := inv.chain i x ⟨w, hw⟩
    exact ⟨hm', d', PChain_mono hcap hlen htomb hlive hc', by rw [hlen]; exact e'⟩

theorem removeLoop_probe {V : Type} (t : hashtable V) (k : Key) (inv : ProbeInv t) :
    ∀ (fuel : Nat) (index visited : Int) (t' : hashtable V),
      removeLoop t k fuel index visited = .ok t' → ProbeInv t' := by
  intro fuel
  induction fuel with
  | zero =>
    intro index visited t' hr
    simp [removeLoop] at hr
  | succ n ih =>
    intro index visited t' hr
    unfold removeLoop at hr
    by_cases hv : visited = Size t
    · simp only [hv, if_true, Except.ok.injEq] at hr
      subst hr
      exact inv
    · simp only [hv, if_false] at hr
      cases hb : bucketAt t.buckets index with
      | none => simp [hb] at hr
      | some e =>
        cases e with
        | nil =>
          simp only [hb, Except.ok.injEq] at hr
          subst hr
          exact inv
        | tombstone =>
          simp only [hb] at hr
          by_cases hk : (Slot.tombstone : Slot V).key? = some k
          · simp only [hk, if_true, Except.ok.injEq] at hr
            subst hr
            exact inv.set_tombstone rfl rfl
          · simp only [hk, if_false] at hr
            exact ih _ _ _ hr
        | entry k1 v1 =>
          simp only [hb] at hr
          by_cases hk : (Slot.entry k1 v1 : Slot V).key? = some k
          · simp only [hk, if_true, Except.ok.injEq] at hr
            subst hr
            exact inv.set_tombstone rfl rfl
          · simp only [hk, if_false] at hr
            exact ih _ _ _ hr

theorem Remove_probe {V : Type} (fuel : Nat) (h : Heap V) (k : Key) (h' : Heap V)
    (inv : ProbeInv h.table) (hr : Remove fuel h k = .ok h') : ProbeInv h'.table := by
  unfold Remove at hr
  by_cases he : IsEmpty h.table = true
  · simp only [he, if_true, Except.ok.injEq] at hr
    subst hr
    exact inv
  · simp only [he] at hr
    cases hs : startIndex h.table k with
    | none => simp [hs] at hr
    | some index =>
      simp only [hs] at hr
      cases hl : removeLoop h.table k fuel index 0 with
      | error f => simp [hl] at hr
      | ok t' =>
        simp only [hl] at hr
        simp only [Bool.false_eq_true, if_false, Except.ok.injEq] at hr
        subst hr
        exact removeLoop_probe h.table k inv fuel index 0 t' hl

theorem run_probe {V : Type} (fuel : Nat) :
    ∀ (ops : List (Op V)) (h h' : Heap V), ProbeInv h.table → run fuel ops h = .ok h' →
      ProbeInv h'.table := by
  intro ops
  induction ops with
  | nil =>
    intro h h' inv hr
    simp only [run, Except.ok.injEq] at hr
    subst hr
    exact inv
  | cons op rest ih =>
    intro h h' inv hr
    simp only [run] at hr
    cases hs : step fuel h op with
    | error f => simp [hs] at hr
    | ok h1 =>
      simp only [hs] at hr
      cases op with
      | set k v => exact ih h1 h' (Set_probe fuel h k v h1 inv hs) hr
      | remove k => exact ih h1 h' (Remove_probe fuel h k h1 inv hs) hr

theorem ProbeInv_New {V : Type} : ProbeInv (New : hashtable V) := ProbeInv_empty 0 0 (le_refl 0)

/-- C16: in every table built from `New()` by returning `Set` and `Remove`
calls, a key held by a live bucket `i` is held by no other live bucket, and
bucket `i` is reached from the start index `hash(k) % capacity` (a valid index
`hm`) after `d` probe steps over buckets that each hold the sentinel or a live
entry of another key, none of them nil. -/
theorem probe_chain_invariant {V : Type} (fuel : Nat) (ops : List (Op V)) (h : Heap V)
    (hrun : run fuel ops initial = .ok h) (i : Nat) (k : Key) (hk : KeyAt h.table i k) :
    (∀ j, KeyAt h.table j k → j = i) ∧
      ∃ hm d : Nat, Int.tmod (hash k) h.table.capacity = (hm : Int) ∧
        hm < h.table.buckets.length ∧ d < h.table.buckets.length ∧
        i = (hm + d) % h.table.buckets.length ∧
        ∀ j, j < d →
          h.table.buckets[(hm + j) % h.table.buckets.length]? = some Slot.tombstone ∨
            ∃ k', k' ≠ k ∧ KeyAt h.table ((hm + j) % h.table.buckets.length) k' := by
  have inv : ProbeInv h.table := run_probe fuel ops initial h ProbeInv_New hrun
  refine ⟨fun j hj => inv.probe_slot_unique hj hk, ?_⟩
  obtain ⟨hm, d, hc, hi⟩ := inv.chain i k hk
  have hlen : 0 < h.table.buckets.length := by
    have := KeyAt_lt hk
    omega
  have hhm : hm < h.table.buckets.length := by
    have h1 := Int.tmod_lt_of_pos (hash k) (b := h.table.capacity) (by rw [inv.cap]; omega)
    rw [hc.1, inv.cap] at h1
    omega
  have hd : d < h.table.buckets.length := by
    by_contra hge
    have hge : h.table.buckets.length ≤ d := by omega
    have e : (hm + (d - h.table.buckets.length)) % h.table.buckets.length
        = (hm + d) % h.table.buckets.length := by
      have : hm + d = hm + (d - h.table.buckets.length) + h.table.buckets.length := by omega
      rw [this, Nat.add_mod_right]
    have hk' : KeyAt h.table ((hm + (d - h.table.buckets.length)) % h.table.buckets.length) k := by
      rw [e, ← hi]
      exact hk
    have := PChain_le hc hk'
    omega
  exact ⟨hm, d, hc.1, hhm, hd, hi, hc.2⟩

/-- C16, at the table after `Set("a",1); Set("b",2); Remove("a")`: `"b"` sits in
bucket 0, one step after its start bucket 2, which holds the sentinel. -/
theorem probe_chain_invariant_witness :
    run 4 [.set [97] (some 1), .set [98] (some 2), .remove [97]] (initial : Heap Nat)
      = .ok ⟨none, ⟨1, 3, [.entry [98] (some 2), .nil, .tombstone]⟩⟩ ∧
    KeyAt (⟨1, 3, [.entry [98] (some 2), .nil, .tombstone]⟩ : hashtable Nat) 0 [98] ∧
    ∀ j, KeyAt (⟨1, 3, [.entry [98] (some 2), .nil, .tombstone]⟩ : hashtable Nat) j [98] →
      j = 0 :=
  ⟨by decide, ⟨some 2, rfl⟩,
    (probe_chain_invariant 4 [.set [97] (some 1), .set [98] (some 2), .remove [97]]
      (⟨none, ⟨1, 3, [.entry [98] (some 2), .nil, .tombstone]⟩⟩ : Heap Nat) (by decide)
      0 [98] ⟨some 2, rfl⟩).1⟩

/-! ## The postcondition of `doubleCapacity` -/

theorem ProbeInv.probe_pairwise_buckets {V : Type} {t : hashtable V} (inv : ProbeInv t) :
    t.buckets.Pairwise DistinctKey := by
  rw [List.pairwise_iff_getElem]
  intro i j hi hj hij k v w h1 h2
  have e1 : t.buckets[i]? = some (Slot.entry k v) := by
    rw [List.getElem?_eq_getElem hi, h1]
  have e2 : t.buckets[j]? = some (Slot.entry k w) := by
    rw [List.getElem?_eq_getElem hj, h2]
  have := inv.probe_slot_unique ⟨v, e1⟩ ⟨w, e2⟩
  omega

/-- A duplicate free list of the keys of a bucket list with pairwise different
keys is as long as the number of live buckets. -/
theorem length_eq_liveCount {V : Type} :
    ∀ (l : List (Slot V)) (ks : List Key), l.Pairwise DistinctKey → ks.Nodup →
      (∀ x, x ∈ ks ↔ ∃ w, Slot.entry x w ∈ l) → ks.length = liveCount l := by
  intro l
  induction l with
  | nil =>
    intro ks _ _ hk
    have : ks = [] := by
      apply List.eq_nil_iff_forall_not_mem.2
      intro x hx
      obtain ⟨w, hw⟩ := (hk x).1 hx
      simp at hw
    subst this
    rfl
  | cons e rest ih =>
    intro ks hp hnd hk
    obtain ⟨hs, hp'⟩ := List.pairwise_cons.1 hp
    cases e with
    | nil =>
      have : liveCount (Slot.nil :: rest) = liveCount rest := by
        simp [liveCount, Slot.IsEmpty]
      rw [this]
      apply ih ks hp' hnd
      intro x
      rw [hk x]
      simp
    | tombstone =>
      have : liveCount (Slot.tombstone :: rest) = liveCount rest := by
        simp [liveCount, Slot.IsEmpty]
      rw [this]
      apply ih ks hp' hnd
      intro x
      rw [hk x]
      simp
    | entry k v =>
      have hlc : liveCount (Slot.entry k v :: rest) = liveCount rest + 1 := by
        simp [liveCount, Slot.IsEmpty]
      have hin : k ∈ ks := (hk k).2 ⟨v, List.mem_cons_self _ _⟩
      have hno : ∀ w', Slot.entry k w' ∉ rest := by
        intro w' hw'
        exact hs _ hw' k v w' rfl rfl
      have hrec : (ks.erase k).length = liveCount rest := by
        apply ih (ks.erase k) hp' (hnd.erase k)
        intro x
        rw [hnd.mem_erase_iff, hk x]
        constructor
        · rintro ⟨hne, w, hw⟩
          simp only [List.mem_cons] at hw
          rcases hw with hw | hw
          · cases hw
            exact absurd rfl hne
          · exact ⟨w, hw⟩
        · rintro ⟨w, hw⟩
          refine ⟨?_, w, List.mem_cons_of_mem _ hw⟩
          rintro rfl
          exact hno w hw
      rw [hlc, ← hrec, List.length_erase_of_mem hin]
      have : 0 < ks.length := List.length_pos_of_mem hin
      omega

/-- C18: for every table built from `New()` by returning `Set` and `Remove`
calls, a returning `doubleCapacity` yields a table whose capacity and bucket
count are `2 * capacity + 1` (1 from capacity 0), that holds no sentinel, whose
live (key, value) pairs are those of the table before, and whose size is the
number of live buckets, before and after. -/
theorem doubleCapacity_postcondition {V : Type} (fuel : Nat) (ops : List (Op V))
    (h : Heap V) (hrun : run fuel ops initial = .ok h) (fuel' : Nat) (h' : Heap V)
    (hd : doubleCapacity fuel' h = .ok h') :
    h'.table.capacity = 2 * h.table.capacity + 1 ∧
      (h'.table.buckets.length : Int) = 2 * h.table.capacity + 1 ∧
      (h.table.capacity = 0 → h'.table.capacity = 1) ∧
      (∀ i : Nat, h'.table.buckets[i]? ≠ some Slot.tombstone) ∧
      (∀ k v, Holds h'.table k v ↔ Holds h.table k v) ∧
      h'.table.size = (liveCount h.table.buckets : Int) ∧
      h'.table.size = (liveCount h'.table.buckets : Int) := by
  have inv : ProbeInv h.table := run_probe fuel ops initial h ProbeInv_New hrun
  obtain ⟨f1, f2, _, _⟩ := doubleCapacity_frame fuel' h h' hd
  unfold doubleCapacity at hd
  dsimp only at hd
  have hc : ¬ (2 * h.table.capacity + 1 < 0) := by
    have := inv.cap
    omega
  simp only [hc, if_false] at hd
  obtain ⟨_, _, ks', wf', hk, hin, _⟩ :=
    rehash_spec fuel' h.table.buckets h.tombstoneValue _ [] h' (WF_empty _ (by omega))
      inv.probe_pairwise_buckets hd
  have hkeys : ∀ x, x ∈ ks' ↔ ∃ w, Slot.entry x w ∈ h.table.buckets := by
    intro x
    rw [hk x]
    simp
  refine ⟨f1, f2, fun h0 => by rw [f1, h0]; rfl, wf'.noTomb, ?_, ?_, ?_⟩
  · intro k v
    constructor
    · rintro ⟨i, hi⟩
      obtain ⟨w, hw⟩ := (hkeys k).1 ((wf'.keys k).2 ⟨i, v, hi⟩)
      have e : v = w := wf'.holds_unique ⟨i, hi⟩ (hin k w hw)
      subst e
      exact List.mem_iff_getElem?.1 hw
    · rintro ⟨i, hi⟩
      exact hin k v (List.mem_iff_getElem?.2 ⟨i, hi⟩)
  · rw [wf'.size, length_eq_liveCount _ ks' inv.probe_pairwise_buckets wf'.nodup hkeys]
  · rw [wf'.size, length_eq_liveCount _ ks' wf'.pairwise_buckets wf'.nodup]
    intro x
    rw [wf'.keys x]
    constructor
    · rintro ⟨i, w, hi⟩
      exact ⟨w, List.mem_iff_getElem?.2 ⟨i, hi⟩⟩
    · rintro ⟨w, hw⟩
      obtain ⟨i, hi⟩ := List.mem_iff_getElem?.1 hw
      exact ⟨i, w, hi⟩

/-- C18, at the table after `Set("a",1); Set("b",2); Remove("a")` (capacity 3,
one sentinel): the grown table has capacity 7 and the one live pair. -/
theorem doubleCapacity_postcondition_witness :
    run 4 [.set [97] (some 1), .set [98] (some 2), .remove [97]] (initial : Heap Nat)
      = .ok ⟨none, ⟨1, 3, [.entry [98] (some 2), .nil, .tombstone]⟩⟩ ∧
    doubleCapacity 4 (⟨none, ⟨1, 3, [.entry [98] (some 2), .nil, .tombstone]⟩⟩ : Heap Nat)
      = .ok ⟨none, ⟨1, 7, [.entry [98] (some 2), .nil, .nil, .nil, .nil, .nil, .nil]⟩⟩ ∧
    (⟨1, 7, [.entry [98] (some 2), .nil, .nil, .nil, .nil, .nil, .nil]⟩ :
        hashtable Nat).capacity = 2 * 3 + 1 :=
  ⟨by decide, by decide,
    (doubleCapacity_postcondition 4 [.set [97] (some 1), .set [98] (some 2), .remove [97]]
      (⟨none, ⟨1, 3, [.entry [98] (some 2), .nil, .tombstone]⟩⟩ : Heap Nat) (by decide) 4
      (⟨none, ⟨1, 7, [.entry [98] (some 2), .nil, .nil, .nil, .nil, .nil, .nil]⟩⟩ : Heap Nat)
      (by decide)).1⟩

/-! ## String interning -/

theorem findLoop_fuel_mono {V : Type} (t : hashtable V) (k : Key) :
    ∀ (fuel : Nat) (index visited : Int) (e : Slot V),
      findLoop t k fuel index visited = .ok e →
      ∀ fuel', fuel ≤ fuel' → findLoop t k fuel' index visited = .ok e := by
  intro fuel
  induction fuel with
  | zero =>
    intro index visited e hr
    simp [findLoop] at hr
  | succ n ih =>
    intro index visited e hr fuel' hle
    obtain ⟨f, rfl⟩ : ∃ f, fuel' = f + 1 := ⟨fuel' - 1, by omega⟩
    unfold findLoop at hr ⊢
    by_cases hv : visited = Size t
    · simp only [hv, if_true] at hr ⊢
      exact hr
    · simp only [hv, if_false] at hr ⊢
      cases hb : bucketAt t.buckets index with
      | none => simp [hb] at hr
      | some s =>
        cases s with
        | nil =>
          simp only [hb] at hr ⊢
          exact hr
        | tombstone =>
          simp only [hb] at hr ⊢
          by_cases hk : (Slot.tombstone : Slot V).key? = some k
          · simp only [hk, if_true] at hr ⊢
            exact hr
          · simp only [hk, if_false] at hr ⊢
            exact ih _ _ _ hr f (by omega)
        | entry k1 v1 =>
          simp only [hb] at hr ⊢
          by_cases hk : (Slot.entry k1 v1 : Slot V).key? = some k
          · simp only [hk, if_true] at hr ⊢
            exact hr
          · simp only [hk, if_false] at hr ⊢
            exact ih _ _ _ hr f (by omega)

theorem find_fuel_mono {V : Type} (t : hashtable V) (k : Key) (fuel fuel' : Nat) (e : Slot V)
    (hr : find fuel t k = .ok e) (hle : fuel ≤ fuel') : find fuel' t k = .ok e := by
  unfold find at hr ⊢
  by_cases he : IsEmpty t = true
  · simp only [he, if_true] at hr ⊢
    exact hr
  · simp only [he] at hr ⊢
    cases hs : startIndex t k with
    | none => simp [hs] at hr
    | some index =>
      simp only [hs] at hr ⊢
      simp only [Bool.false_eq_true, if_false] at hr ⊢
      exact findLoop_fuel_mono t k fuel index 0 e hr fuel' hle

/-- What `find` returns is nil or a bucket of the table whose key is `k`. -/
theorem findLoop_result {V : Type} (t : hashtable V) (k : Key) :
    ∀ (fuel : Nat) (index visited : Int) (e : Slot V),
      findLoop t k fuel index visited = .ok e →
      e = Slot.nil ∨ (e.key? = some k ∧ ∃ n : Nat, t.buckets[n]? = some e) := by
  intro fuel
  induction fuel with
  | zero =>
    intro index visited e hr
    simp [findLoop] at hr
  | succ n ih =>
    intro index visited e hr
    unfold findLoop at hr
    by_cases hv : visited = Size t
    · simp only [hv, if_true, Except.ok.injEq] at hr
      exact Or.inl hr.symm
    · simp only [hv, if_false] at hr
      cases hb : bucketAt t.buckets index with
      | none => simp [hb] at hr
      | some s =>
        have hmem : ∃ n : Nat, t.buckets[n]? = some s := by
          unfold bucketAt at hb
          by_cases hneg : index < 0
          · simp [hneg] at hb
          · simp only [hneg, if_false] at hb
            exact ⟨_, hb⟩
        cases s with
        | nil =>
          simp only [hb, Except.ok.injEq] at hr
          exact Or.inl hr.symm
        | tombstone =>
          simp only [hb] at hr
          by_cases hk : (Slot.tombstone : Slot V).key? = some k
          · simp only [hk, if_true, Except.ok.injEq] at hr
            subst hr
            exact Or.inr ⟨hk, hmem⟩
          · simp only [hk, if_false] at hr
            exact ih _ _ _ hr
        | entry k1 v1 =>
          simp only [hb] at hr
          by_cases hk : (Slot.entry k1 v1 : Slot V).key? = some k
          · simp only [hk, if_true, Except.ok.injEq] at hr
            subst hr
            exact Or.inr ⟨hk, hmem⟩
          · simp only [hk, if_false] at hr
            exact ih _ _ _ hr

/-- On a table without tombstones `find` returns nil or a live entry of `k`. -/
theorem WF.find_result {V : Type} {t : hashtable V} {ks : List Key} (wf : WF t ks)
    (fuel : Nat) (k : Key) (e : Slot V) (hr : find fuel t k = .ok e) :
    e = Slot.nil ∨ ∃ v, e = Slot.entry k v ∧ Holds t k v := by
  unfold find at hr
  by_cases he : IsEmpty t = true
  · simp only [he, if_true, Except.ok.injEq] at hr
    exact Or.inl hr.symm
  · simp only [he] at hr
    cases hs : startIndex t k with
    | none => simp [hs] at hr
    | some index =>
      simp only [hs] at hr
      simp only [Bool.false_eq_true, if_false] at hr
      rcases findLoop_result t k fuel index 0 e hr with h | ⟨hkey, n, hn⟩
      · exact Or.inl h
      · right
        cases e with
        | nil => simp [Slot.key?] at hkey
        | tombstone => exact absurd hn (wf.noTomb n)
        | entry k1 v1 =>
          simp only [Slot.key?, Option.some.injEq] at hkey
          subst hkey
          exact ⟨v1, rfl, n, hn⟩

/-- On a table without tombstones a nil result of `find` means that the key is
not in the table. -/
theorem WF.not_holds_of_find_nil {V : Type} {t : hashtable V} {ks : List Key} (wf : WF t ks)
    (fuel : Nat) (k : Key) (hr : find fuel t k = .ok Slot.nil) (v : Option V) :
    ¬ Holds t k v := by
  intro hv
  have h1 := find_fuel_mono t k fuel (max fuel (t.size.toNat + 1)) _ hr (le_max_left _ _)
  have h2 := wf.find_of_holds hv (max fuel (t.size.toNat + 1)) (by
    have := le_max_right fuel (t.size.toNat + 1)
    omega)
  rw [h1] at h2
  cases h2

theorem WF.holds_of_Get_some {V : Type} {h : Heap V} {ks : List Key} (wf : WF h.table ks)
    (fuel : Nat) (k : Key) (p : V) (hr : Get fuel h k = .ok (some p)) :
    Holds h.table k (some p) := by
  unfold Get at hr
  cases hf : find fuel h.table k with
  | error f => simp [hf] at hr
  | ok e =>
    rcases wf.find_result fuel k e hf with rfl | ⟨v, rfl, hv⟩
    · simp [hf] at hr
    · simp only [hf, Except.ok.injEq] at hr
      subst hr
      exact hv

theorem WF.not_holds_of_Get_none {V : Type} {h : Heap V} {ks : List Key} (wf : WF h.table ks)
    (hvals : ∀ k v, Holds h.table k v → v ≠ none)
    (fuel : Nat) (k : Key) (hr : Get fuel h k = .ok none) (v : Option V) :
    ¬ Holds h.table k v := by
  unfold Get at hr
  cases hf : find fuel h.table k with
  | error f => simp [hf] at hr
  | ok e =>
    rcases wf.find_result fuel k e hf with rfl | ⟨w, rfl, hw⟩
    · exact wf.not_holds_of_find_nil fuel k hf v
    · simp only [hf, Except.ok.injEq] at hr
      subst hr
      exact absurd rfl (hvals k none hw)

/-- After a returning `Set` on a table without tombstones, an entry of another
key was there before. -/
theorem holds_before_Set {V : Type} {t t' : hashtable V} {ks ks' : List Key} (wf : WF t ks)
    (wf' : WF t' ks') {k : Key} (hk : ∀ x, x ∈ ks' ↔ x = k ∨ x ∈ ks)
    (hold : ∀ k', k' ≠ k → ∀ w, Holds t k' w → Holds t' k' w)
    {k' : Key} (hne : k' ≠ k) {w : Option V} (hw : Holds t' k' w) : Holds t k' w := by
  obtain ⟨i, hi⟩ := hw
  have hin : k' ∈ ks' := (wf'.keys k').2 ⟨i, w, hi⟩
  rcases (hk k').1 hin with h | h
  · exact absurd h hne
  · obtain ⟨j, w0, hj⟩ := (wf.keys k').1 h
    have e : w = w0 := wf'.holds_unique ⟨i, hi⟩ (hold k' hne w0 ⟨j, hj⟩)
    subst e
    exact ⟨j, hj⟩

theorem vm.Inv_New : vm.Inv vm.New [] := by
  refine ⟨⟨[], WF_New⟩, ?_, ?_, ?_⟩
  · rintro k v ⟨i, hi⟩
    have hb : vm.New.strings.table.buckets = [] := rfl
    rw [hb] at hi
    simp at hi
  · rintro k k' p ⟨i, hi⟩
    have hb : vm.New.strings.table.buckets = [] := rfl
    rw [hb] at hi
    simp at hi
  · intro s p hsp
    simp at hsp

/-- A returning `intern` keeps the invariant and stores the pair it returns. -/
theorem vm.intern_Inv (fuel : Nat) (m : vm) (hist : List (Key × Handle)) (s : Key)
    (p : Handle) (m' : vm) (inv : vm.Inv m hist) (hr : m.intern fuel s = .ok (p, m')) :
    vm.Inv m' ((s, p) :: hist) := by
  obtain ⟨ks, wf⟩ := inv.wf
  have hvals : ∀ k v, Holds m.strings.table k v → v ≠ none := by
    intro k v hv e
    obtain ⟨q, hq, _⟩ := inv.vals k v hv
    rw [e] at hq
    cases hq
  unfold vm.intern at hr
  cases hg : Get fuel m.strings s with
  | error f => simp [hg] at hr
  | ok r =>
    cases r with
    | some q =>
      simp only [hg, Except.ok.injEq, Prod.mk.injEq] at hr
      obtain ⟨rfl, rfl⟩ := hr
      have hq := wf.holds_of_Get_some fuel s q hg
      refine ⟨⟨ks, wf⟩, inv.vals, inv.inj, ?_⟩
      intro s' p' hsp
      simp only [List.mem_cons, Prod.mk.injEq] at hsp
      rcases hsp with ⟨rfl, rfl⟩ | hsp
      · exact hq
      · exact inv.hist s' p' hsp
    | none =>
      simp only [hg] at hr
      have habs := wf.not_holds_of_Get_none hvals fuel s hg
      cases hs : Set fuel m.strings s (some (m.newString s).1) with
      | error f => simp [hs] at hr
      | ok strings =>
        simp only [hs] at hr
        obtain ⟨_, ks', wf', hk, hnew, hold⟩ :=
          Set_spec fuel m.strings.tombstoneValue m.strings.table ks wf s _ strings hs
        cases hg' : Get fuel strings s with
        | error f => simp [hg'] at hr
        | ok r' =>
          cases r' with
          | none => simp [hg'] at hr
          | some q =>
            simp only [hg', Except.ok.injEq, Prod.mk.injEq] at hr
            obtain ⟨rfl, rfl⟩ := hr
            have hq := wf'.holds_of_Get_some fuel s q hg'
            have e := wf'.holds_unique hq hnew
            simp only [vm.newString, Option.some.injEq] at e
            subst e
            simp only [vm.newString] at hnew
            refine ⟨⟨ks', wf'⟩, ?_, ?_, ?_⟩
            · intro k v hv
              by_cases hks : k = s
              · subst hks
                exact ⟨m.allocated, wf'.holds_unique hv hnew, Nat.lt_succ_self _⟩
              · obtain ⟨q, hq1, hq2⟩ := inv.vals k v (holds_before_Set wf wf' hk hold hks hv)
                exact ⟨q, hq1, Nat.lt_succ_of_lt hq2⟩
            · intro k k' q hv hv'
              by_cases hks : k = s
              · by_cases hks' : k' = s
                · rw [hks, hks']
                · exfalso
                  subst hks
                  have e1 := wf'.holds_unique hv hnew
                  simp only [Option.some.injEq] at e1
                  subst e1
                  obtain ⟨q, hq1, hq2⟩ :=
                    inv.vals k' _ (holds_before_Set wf wf' hk hold hks' hv')
                  simp only [Option.some.injEq] at hq1
                  rw [← hq1] at hq2
                  exact absurd hq2 (Nat.lt_irrefl _)
              · by_cases hks' : k' = s
                · exfalso
                  subst hks'
                  have e1 := wf'.holds_unique hv' hnew
                  simp only [Option.some.injEq] at e1
                  subst e1
                  obtain ⟨q, hq1, hq2⟩ :=
                    inv.vals k _ (holds_before_Set wf wf' hk hold hks hv)
                  simp only [Option.some.injEq] at hq1
                  rw [← hq1] at hq2
                  exact absurd hq2 (Nat.lt_irrefl _)
                · exact inv.inj k k' q (holds_before_Set wf wf' hk hold hks hv)
                    (holds_before_Set wf wf' hk hold hks' hv')
            · intro s' p' hsp
              simp only [List.mem_cons, Prod.mk.injEq] at hsp
              rcases hsp with ⟨rfl, rfl⟩ | hsp
              · exact hnew
              · have hold' := inv.hist s' p' hsp
                have hne : s' ≠ s := by
                  rintro rfl
                  exact habs _ hold'
                exact hold s' hne _ hold'

theorem vm.Strings_Inv (fuel : Nat) :
    ∀ (ss : List Key) (m : vm) (hist : List (Key × Handle)) (hs : List Handle) (m' : vm),
      vm.Inv m hist → vm.Strings fuel ss m = .ok (hs, m') →
      hs.length = ss.length ∧
        ∃ hist', vm.Inv m' hist' ∧ (∀ x, x ∈ hist → x ∈ hist') ∧
          ∀ x, x ∈ ss.zip hs → x ∈ hist' := by
  intro ss
  induction ss with
  | nil =>
    intro m hist hs m' inv hr
    simp only [vm.Strings, Except.ok.injEq, Prod.mk.injEq] at hr
    obtain ⟨rfl, rfl⟩ := hr
    exact ⟨rfl, hist, inv, fun x hx => hx, by simp⟩
  | cons s rest ih =>
    intro m hist hs m' inv hr
    simp only [vm.Strings, vm.String] at hr
    cases hi : m.intern fuel s with
    | error f => simp [hi] at hr
    | ok r =>
      obtain ⟨p, m1⟩ := r
      simp only [hi] at hr
      cases hrest : vm.Strings fuel rest m1 with
      | error f => simp [hrest] at hr
      | ok r' =>
        obtain ⟨ps, m2⟩ := r'
        simp only [hrest, Except.ok.injEq, Prod.mk.injEq] at hr
        obtain ⟨rfl, rfl⟩ := hr
        obtain ⟨hlen, hist', inv', hsub, hzip⟩ :=
          ih m1 ((s, p) :: hist) ps m2 (vm.intern_Inv fuel m hist s p m1 inv hi) hrest
        refine ⟨by simp [hlen], hist', inv', ?_, ?_⟩
        · intro x hx
          exact hsub x (List.mem_cons_of_mem _ hx)
        · intro x hx
          simp only [List.zip_cons_cons, List.mem_cons] at hx
          rcases hx with rfl | hx
          · exact hsub _ (List.mem_cons_self _ _)
          · exact hzip x hx

/-- C13: for every sequence of `String` calls on a `vm` created by `New()` in
which every call returns, there is one handle per call, and two calls (each
paired with the handle it returned) return the same handle exactly when their
arguments have equal content. -/
theorem interning_identity (fuel : Nat) (ss : List Key) (hs : List Handle) (m' : vm)
    (hrun : vm.Strings fuel ss vm.New = .ok (hs, m')) :
    hs.length = ss.length ∧
      ∀ s p s' p', (s, p) ∈ ss.zip hs → (s', p') ∈ ss.zip hs → (p = p' ↔ s = s') := by
  obtain ⟨hlen, hist', inv', _, hzip⟩ := vm.Strings_Inv fuel ss vm.New [] hs m' vm.Inv_New hrun
  obtain ⟨ks, wf⟩ := inv'.wf
  refine ⟨hlen, ?_⟩
  intro s p s' p' h1 h2
  have a1 := inv'.hist s p (hzip _ h1)
  have a2 := inv'.hist s' p' (hzip _ h2)
  constructor
  · rintro rfl
    exact inv'.inj s s' p a1 a2
  · rintro rfl
    have := wf.holds_unique a1 a2
    simpa using this

set_option maxRecDepth 100000 in
/-- C13, at the calls of the test: `String("hello")` twice and
`String("hello 1")` twice return the handles 0, 0, 1, 1, so the two calls on
`"hello"` agree and `"hello"` and `"hello 1"` differ. -/
theorem interning_identity_witness :
    (vm.Strings 4 [[104, 101, 108, 108, 111], [104, 101, 108, 108, 111],
        [104, 101, 108, 108, 111, 32, 49], [104, 101, 108, 108, 111, 32, 49]] vm.New).map
        Prod.fst = .ok [0, 0, 1, 1] ∧
    ((0 : Handle) = 1 ↔
      ([104, 101, 108, 108, 111] : Key) = [104, 101, 108, 108, 111, 32, 49]) :=
  ⟨by decide,
    (interning_identity 4
      [[104, 101, 108, 108, 111], [104, 101, 108, 108, 111],
        [104, 101, 108, 108, 111, 32, 49], [104, 101, 108, 108, 111, 32, 49]]
      [0, 0, 1, 1]
      ⟨⟨none, ⟨2, 3, [.entry [104, 101, 108, 108, 111, 32, 49] (some 1),
          .entry [104, 101, 108, 108, 111] (some 0), .nil]⟩⟩, 2⟩
      (by decide)).2 [104, 101, 108, 108, 111] 0 [104, 101, 108, 108, 111, 32, 49] 1
      (by decide) (by decide)⟩

/-! ## `Has` against `Get` -/

theorem find_entry_key {V : Type} (fuel : Nat) (t : hashtable V) (key k : Key)
    (v : Option V) (hr : find fuel t key = .ok (Slot.entry k v)) : k = key := by
  unfold find at hr
  by_cases he : IsEmpty t = true
  · simp [he] at hr
  · simp only [he] at hr
    cases hs : startIndex t key with
    | none => simp [hs] at hr
    | some index =>
      simp only [hs] at hr
      simp only [Bool.false_eq_true, if_false] at hr
      rcases findLoop_result t key fuel index 0 _ hr with h | ⟨hkey, _⟩
      · cases h
      · simpa [Slot.key?] using hkey

/-- C11, amended: for every table state and key on which `find` does not return
the sentinel, `Has` is true exactly when `Get` returns a non-nil value or the
entry that `find` matched stores nil; `Has` is false exactly when `Get` returns
nil and no matched entry stores nil; and `Has` fails exactly when `Get`
fails. -/
theorem Has_Get_agree {V : Type} (fuel : Nat) (h : Heap V) (key : Key)
    (hs : find fuel h.table key ≠ .ok Slot.tombstone) :
    (Has fuel h key = .ok true ↔
      (∃ v : V, Get fuel h key = .ok (some v)) ∨
        find fuel h.table key = .ok (Slot.entry key none)) ∧
    (Has fuel h key = .ok false ↔
      Get fuel h key = .ok none ∧ find fuel h.table key ≠ .ok (Slot.entry key none)) ∧
    (∀ f : Fault, Has fuel h key = .error f ↔ Get fuel h key = .error f) := by
  unfold Get Has
  cases hf : find fuel h.table key with
  | error f => simp
  | ok e =>
    cases e with
    | nil => simp
    | tombstone => exact absurd hf hs
    | entry k v =>
      have hk := find_entry_key fuel h.table key k v hf
      subst hk
      cases v with
      | none => simp
      | some w => simp

/-- C11, amended, at the table that stores nil under `"a"`: `find` returns the
live entry, not the sentinel, and `Has("a")` is true. -/
theorem Has_Get_agree_witness :
    find 2 (⟨1, 1, [.entry [97] none]⟩ : hashtable Nat) [97] ≠ .ok Slot.tombstone ∧
      Has 2 (⟨none, ⟨1, 1, [.entry [97] none]⟩⟩ : Heap Nat) [97] = .ok true :=
  ⟨by decide,
    (Has_Get_agree 2 (⟨none, ⟨1, 1, [.entry [97] none]⟩⟩ : Heap Nat) [97] (by decide)).1.2
      (Or.inr (by decide))⟩

/-! ## Concurrent `Set` calls -/

/-- Run alone, the sections of a `Set` call are the method `Set`. -/
theorem interleave_single {V : Type} (fuel : Nat) (h : Heap V) (key : Key)
    (value : Option V) :
    (interleave fuel [0, 0, 0] h [⟨key, value, 0⟩]).map Prod.fst = Set fuel h key value := by
  unfold Set
  by_cases hw : willExceedCapacity h.table = true
  · cases hd : doubleCapacity fuel h with
    | error f => simp [interleave, SetCall.advance, hw, hd, Except.map]
    | ok h1 =>
      cases hi : insert fuel h1 key value with
      | error f => simp [interleave, SetCall.advance, hw, hd, hi, Except.map]
      | ok h2 => simp [interleave, SetCall.advance, hw, hd, hi, Except.map]
  · cases hi : insert fuel h key value with
    | error f => simp [interleave, SetCall.advance, hw, hi, Except.map]
    | ok h2 => simp [interleave, SetCall.advance, hw, hi, Except.map]

/-- C15: three concurrent calls `Set("d",2)`, `Set("f",2)`, `Set("g",2)` on the
table after `Set` of `"a","b","c","e"` (size 4, capacity 7).  When each call
makes its unlocked check before any of them inserts, all three checks see size
4 (`5 > 5` is false), nobody grows, and the three locked inserts fill the
table: size 7 of capacity 7, above the load bound `maxLoad 7 = 5`.  Run one
after the other, the same calls end with capacity 15. -/
theorem concurrent_Set_skips_growth :
    run 8 [.set [97] (some 1), .set [98] (some 1), .set [99] (some 1), .set [101] (some 1)]
        (initial : Heap Nat)
      = .ok ⟨none, ⟨4, 7, [.entry [98] (some 1), .entry [101] (some 1), .entry [99] (some 1),
              .nil, .nil, .nil, .entry [97] (some 1)]⟩⟩ ∧
    interleave 8 [0, 1, 2, 0, 1, 2]
        (⟨none, ⟨4, 7, [.entry [98] (some 1), .entry [101] (some 1), .entry [99] (some 1),
              .nil, .nil, .nil, .entry [97] (some 1)]⟩⟩ : Heap Nat)
        [⟨[100], some 2, 0⟩, ⟨[102], some 2, 0⟩, ⟨[103], some 2, 0⟩]
      = .ok (⟨none, ⟨7, 7, [.entry [98] (some 1), .entry [101] (some 1), .entry [99] (some 1),
              .entry [102] (some 2), .entry [103] (some 2), .entry [100] (some 2),
              .entry [97] (some 1)]⟩⟩,
          [⟨[100], some 2, 3⟩, ⟨[102], some 2, 3⟩, ⟨[103], some 2, 3⟩]) ∧
    maxLoad 7 = 5 ∧
    (run 8 [.set [100] (some 2), .set [102] (some 2), .set [103] (some 2)]
        (⟨none, ⟨4, 7, [.entry [98] (some 1), .entry [101] (some 1), .entry [99] (some 1),
              .nil, .nil, .nil, .entry [97] (some 1)]⟩⟩ : Heap Nat)).map
        (fun h => (h.table.size, h.table.capacity)) = .ok (7, 15) := by
  decide

end Hashtable
